import Mathlib

set_option maxRecDepth 100000

/-!
Verification of the resilient structured-completion pipeline of the
english-native-check repository (server `src/server/index.js`, second revision,
and the client prober in `src/web/src/App.jsx`).

The JavaScript code is shallowly embedded: JavaScript values are modelled by
the inductive type `Js`, JavaScript numbers by `JsNum` (NaN, the two
infinities, and finite values represented as exact rationals `Rq`).  Finite
doubles are modelled as exact rationals; this is exact for every number that
actually appears in the claims.  All definitions are executable and
kernel-reducible (no well-founded recursion), so concrete runs can be checked
by `decide`/`rfl`.
-/

/-- Exact rational numbers in lowest terms (canonical representation: the
numerator and denominator are coprime and the denominator is positive).
Used to model finite JavaScript numbers.  We implement our own operations so
that every computation reduces in the kernel. -/
structure Rq where
  num : Int
  den : Nat
deriving DecidableEq, Repr

/-- Build the canonical rational `n / d` (for `d ≠ 0`) by dividing out the gcd. -/
def rqMk (n : Int) (d : Nat) : Rq :=
  let g := Nat.gcd n.natAbs d
  ⟨n / (g : Int), d / g⟩

/-- Embed an integer as a rational. -/
def intToRq (n : Int) : Rq := ⟨n, 1⟩

/-- `rqRound q = ⌊q + 1/2⌋`, the semantics of JavaScript `Math.round` on a
finite value (halves round toward positive infinity). -/
def rqRound (q : Rq) : Int := Int.fdiv (2 * q.num + (q.den : Int)) (2 * (q.den : Int))

/-- Comparison `a ≤ b` by cross multiplication (denominators are positive). -/
def rqLe (a b : Rq) : Bool := a.num * (b.den : Int) ≤ b.num * (a.den : Int)

def rqNeg (q : Rq) : Rq := ⟨-q.num, q.den⟩

/-- Multiply a rational by `10 ^ k` (re-normalizing). -/
def rqMulPow10 (q : Rq) (k : Nat) : Rq := rqMk (q.num * (10 ^ k : Nat)) q.den

/-- Valuation of `Rq` into Mathlib's rationals; used only in proofs. -/
def Rq.toRat (q : Rq) : ℚ := (q.num : ℚ) / (q.den : ℚ)

/-- A JavaScript number: NaN, ±Infinity, or a finite (exact rational) value. -/
inductive JsNum where
  | nan
  | posInf
  | negInf
  | fin (q : Rq)
deriving DecidableEq, Repr

/-- `Math.round`: NaN and infinities are fixed points, finite values go to
`⌊x + 1/2⌋`. -/
def jsRound : JsNum → JsNum
  | .nan => .nan
  | .posInf => .posInf
  | .negInf => .negInf
  | .fin q => .fin (intToRq (rqRound q))

/-- `Math.min` of two JavaScript numbers: NaN is absorbing, otherwise the
usual order with `-Infinity < finite < Infinity`. -/
def jsMin : JsNum → JsNum → JsNum
  | .nan, _ => .nan
  | _, .nan => .nan
  | .negInf, _ => .negInf
  | _, .negInf => .negInf
  | .posInf, b => b
  | a, .posInf => a
  | .fin a, .fin b => if rqLe a b then .fin a else .fin b

/-- `Math.max` of two JavaScript numbers: NaN is absorbing. -/
def jsMax : JsNum → JsNum → JsNum
  | .nan, _ => .nan
  | _, .nan => .nan
  | .posInf, _ => .posInf
  | _, .posInf => .posInf
  | .negInf, b => b
  | a, .negInf => a
  | .fin a, .fin b => if rqLe a b then .fin b else .fin a

/-- JavaScript `n >= k` for an integer threshold `k`: false for NaN
(all NaN comparisons are false). -/
def jsGe (n : JsNum) (k : Int) : Bool :=
  match n with
  | .nan => false
  | .posInf => true
  | .negInf => false
  | .fin q => rqLe (intToRq k) q

/-- JavaScript values as produced by `JSON.parse` plus `undefined` (objects
are association lists in insertion order with distinct keys, which is what
`JSON.parse` produces). -/
inductive Js where
  | undef
  | null
  | bool (b : Bool)
  | num (n : JsNum)
  | str (s : String)
  | arr (elems : List Js)
  | obj (fields : List (String × Js))
deriving Repr

/-- The whitespace class trimmed by JavaScript `String.prototype.trim` and
matched by `\s` (space, tab, line terminators, NBSP, the Unicode `Zs`
space separators, BOM). -/
def jsIsWhite (c : Char) : Bool :=
  c == ' ' || c == '\t' || c == '\n' || c == '\r' || c.toNat == 11 || c.toNat == 12 ||
  c.toNat == 0xA0 || c.toNat == 0x1680 ||
  (0x2000 ≤ c.toNat && c.toNat ≤ 0x200A) ||
  c.toNat == 0x2028 || c.toNat == 0x2029 || c.toNat == 0x202F ||
  c.toNat == 0x205F || c.toNat == 0x3000 || c.toNat == 0xFEFF

def trimLeftL (l : List Char) : List Char := l.dropWhile jsIsWhite

def trimRightL (l : List Char) : List Char := (l.reverse.dropWhile jsIsWhite).reverse

/-- JavaScript `s.trim()`. -/
def jsTrim (s : String) : String := ⟨trimRightL (trimLeftL s.data)⟩

/-- ASCII lowercasing, the effect of `toLowerCase` on the ASCII strings the
pipeline manipulates (we do not model full Unicode case mapping). -/
def charLower (c : Char) : Char :=
  if 65 ≤ c.toNat && c.toNat ≤ 90 then Char.ofNat (c.toNat + 32) else c

def lowerL (l : List Char) : List Char := l.map charLower

def jsToLower (s : String) : String := ⟨lowerL s.data⟩

/-- A regexp word character `\w`, i.e. `[A-Za-z0-9_]`. -/
def isWordChar (c : Char) : Bool :=
  (65 ≤ c.toNat && c.toNat ≤ 90) || (97 ≤ c.toNat && c.toNat ≤ 122) ||
  (48 ≤ c.toNat && c.toNat ≤ 57) || c == '_'

/-- Fuel-indexed implementation of `replace(/\W+/g, " ")`: every maximal run
of non-word characters becomes a single space. -/
def collapseGo : Nat → List Char → List Char
  | 0, _ => []
  | _ + 1, [] => []
  | f + 1, c :: rest =>
    if isWordChar c then c :: collapseGo f rest
    else ' ' :: collapseGo f (rest.dropWhile (fun d => !isWordChar d))

/-- `replace(/\W+/g, " ")` on a character list. -/
def collapseRuns (l : List Char) : List Char := collapseGo l.length l

/-- Does `l` start with `pat`? -/
def listStartsWith : List Char → List Char → Bool
  | _, [] => true
  | [], _ :: _ => false
  | a :: as, b :: bs => a == b && listStartsWith as bs

/-- Does `pat` occur as a contiguous substring of the second argument? -/
def listHasSub (pat : List Char) : List Char → Bool
  | [] => pat.isEmpty
  | c :: t => listStartsWith (c :: t) pat || listHasSub pat t

/-- Decimal digit character for `n < 10`. -/
def digitChar (n : Nat) : Char := Char.ofNat (48 + n)

/-- Fuel-indexed most-significant-first decimal digits of a natural number. -/
def natDigitsGo : Nat → Nat → List Char
  | 0, _ => []
  | f + 1, n =>
    if n < 10 then [digitChar n]
    else natDigitsGo f (n / 10) ++ [digitChar (n % 10)]

/-- Decimal digit string of a natural number (canonical, no leading zeros). -/
def natDigits (n : Nat) : List Char := natDigitsGo (n + 1) n

/-- Numeric value of a list of decimal digit characters. -/
def digitsVal (l : List Char) : Nat := l.foldl (fun a c => a * 10 + (c.toNat - 48)) 0

/-- Fuel-indexed multiplicity of the prime `p` in `n`. -/
def multGo (p : Nat) : Nat → Nat → Nat
  | 0, _ => 0
  | f + 1, n => if 2 ≤ n && n % p == 0 then multGo p f (n / p) + 1 else 0

/-- Multiplicity of `p` in `n` (how many times `p` divides `n`). -/
def multOf (p n : Nat) : Nat := multGo p n n

/-- Exactly `k` decimal digits of `m < 10 ^ k`, padded with leading zeros. -/
def padDigits (k m : Nat) : List Char :=
  List.replicate (k - (natDigits m).length) '0' ++ natDigits m

/-- Decimal rendering of a nonnegative rational whose denominator divides a
power of ten (which is the case for every finite double).  This models the
exact-value decimal rendering of a number; JavaScript prints the shortest
decimal that round-trips, which denotes the same value. -/
def printNumPos (q : Rq) : List Char :=
  let k := max (multOf 2 q.den) (multOf 5 q.den)
  let n := (rqMulPow10 q k).num.toNat
  if k = 0 then natDigits n
  else natDigits (n / 10 ^ k) ++ '.' :: padDigits k (n % 10 ^ k)

/-- Decimal rendering of a rational (sign first). -/
def printNum (q : Rq) : List Char :=
  if q.num < 0 then '-' :: printNumPos (rqNeg q) else printNumPos q

/-- JavaScript `ToString` on a number. -/
def jsNumToString : JsNum → String
  | .nan => "NaN"
  | .posInf => "Infinity"
  | .negInf => "-Infinity"
  | .fin q => ⟨printNum q⟩

/-- Hexadecimal digit value. -/
def hexDigitVal (c : Char) : Option Nat :=
  if 48 ≤ c.toNat && c.toNat ≤ 57 then some (c.toNat - 48)
  else if 97 ≤ c.toNat && c.toNat ≤ 102 then some (c.toNat - 87)
  else if 65 ≤ c.toNat && c.toNat ≤ 70 then some (c.toNat - 55)
  else none

/-- Value of a digit string in the given radix; `none` if some character is
not a digit of that radix or the string is empty. -/
def parseRadix (radix : Nat) (l : List Char) : Option Nat :=
  match l with
  | [] => none
  | _ =>
    l.foldl (fun acc c =>
      match acc, hexDigitVal c with
      | some a, some d => if d < radix then some (a * radix + d) else none
      | _, _ => none) (some 0)

def isDigitCh (c : Char) : Bool := 48 ≤ c.toNat && c.toNat ≤ 57

def spanDigits (l : List Char) : List Char × List Char :=
  (l.takeWhile isDigitCh, l.dropWhile isDigitCh)

/-- Parse the optional-signed decimal digits of an exponent (whole input). -/
def parseSignedDigits (l : List Char) : Option Int :=
  let (neg, l1) := match l with
    | '+' :: r => (false, r)
    | '-' :: r => (true, r)
    | _ => (false, l)
  let (ds, rest) := spanDigits l1
  if ds.isEmpty || !rest.isEmpty then none
  else some (if neg then -(digitsVal ds : Int) else (digitsVal ds : Int))

/-- Parse an optional exponent part; empty input means exponent `0`. -/
def parseExpPart (l : List Char) : Option Int :=
  match l with
  | [] => some 0
  | 'e' :: r => parseSignedDigits r
  | 'E' :: r => parseSignedDigits r
  | _ => none

/-- Assemble `(ip + fp/10^flen) * 10^e` as a canonical rational. -/
def decimalValue (ip : Nat) (fp : Nat) (flen : Nat) (e : Int) : Rq :=
  let base : Int := (ip * 10 ^ flen + fp : Nat)
  if 0 ≤ e then rqMk (base * (10 ^ e.toNat : Nat)) (10 ^ flen)
  else rqMk base (10 ^ flen * 10 ^ (-e).toNat)

/-- Parse an unsigned decimal literal of the ECMAScript `StrUnsignedDecimalLiteral`
grammar (digits, optional fraction, optional exponent), requiring the whole
input to be consumed. -/
def parseUDecimal (l : List Char) : Option Rq :=
  let (ip, r1) := spanDigits l
  match r1 with
  | '.' :: r =>
    let (fp, r2) := spanDigits r
    if ip.isEmpty && fp.isEmpty then none
    else (parseExpPart r2).map (fun e => decimalValue (digitsVal ip) (digitsVal fp) fp.length e)
  | _ =>
    if ip.isEmpty then none
    else (parseExpPart r1).map (fun e => decimalValue (digitsVal ip) 0 0 e)

/-- JavaScript `Number(string)` (ECMAScript `ToNumber` on strings): trim,
empty means `0`, otherwise a signed decimal literal, `Infinity`, or an
unsigned hex/octal/binary literal; anything else is NaN. -/
def strToNumber (s : String) : JsNum :=
  match (jsTrim s).data with
  | [] => .fin (intToRq 0)
  | l =>
    if listStartsWith l ['0', 'x'] || listStartsWith l ['0', 'X'] then
      match parseRadix 16 (l.drop 2) with
      | some n => .fin (intToRq n)
      | none => .nan
    else if listStartsWith l ['0', 'o'] || listStartsWith l ['0', 'O'] then
      match parseRadix 8 (l.drop 2) with
      | some n => .fin (intToRq n)
      | none => .nan
    else if listStartsWith l ['0', 'b'] || listStartsWith l ['0', 'B'] then
      match parseRadix 2 (l.drop 2) with
      | some n => .fin (intToRq n)
      | none => .nan
    else
      let (neg, l1) := match l with
        | '+' :: r => (false, r)
        | '-' :: r => (true, r)
        | _ => (false, l)
      if l1 = "Infinity".data then (if neg then .negInf else .posInf)
      else
        match parseUDecimal l1 with
        | some q => .fin (if neg then rqNeg q else q)
        | none => .nan

mutual

/-- JavaScript `ToString` on the values `JSON.parse` can produce (arrays join
their elements with commas, `null`/`undefined` elements become empty, plain
objects print as `[object Object]`). -/
def jsToString : Js → String
  | .undef => "undefined"
  | .null => "null"
  | .bool true => "true"
  | .bool false => "false"
  | .num n => jsNumToString n
  | .str s => s
  | .arr xs => String.intercalate "," (jsElemStrs xs)
  | .obj _ => "[object Object]"

/-- Element strings for `Array.prototype.join`. -/
def jsElemStrs : List Js → List String
  | [] => []
  | .undef :: vs => "" :: jsElemStrs vs
  | .null :: vs => "" :: jsElemStrs vs
  | v :: vs => jsToString v :: jsElemStrs vs

end

/-- JavaScript `Number(v)` (ECMAScript `ToNumber`): arrays and objects convert
via their string form. -/
def jsToNumber (v : Js) : JsNum :=
  match v with
  | .undef => .nan
  | .null => .fin (intToRq 0)
  | .bool b => .fin (intToRq (if b then 1 else 0))
  | .num n => n
  | .str s => strToNumber s
  | .arr xs => strToNumber (jsToString (.arr xs))
  | .obj fs => strToNumber (jsToString (.obj fs))

/-- JavaScript truthiness. -/
def jsTruthy : Js → Bool
  | .undef => false
  | .null => false
  | .bool b => b
  | .num .nan => false
  | .num (.fin q) => !(q == intToRq 0)
  | .num _ => true
  | .str s => !(s == "")
  | .arr _ => true
  | .obj _ => true

/-- Property access `v?.k` for the data properties the pipeline reads
(`none` models `undefined`; only objects have own data properties among the
values `JSON.parse` yields). -/
def jsGetField (v : Js) (k : String) : Option Js :=
  match v with
  | .obj fs => (fs.find? (fun p => p.1 == k)).map (fun p => p.2)
  | _ => none

/-! ## The result normalizer (`src/server/index.js`, `deriveLevel` l.328-335 and
`normalizeResult` l.337-367) -/

/-- `deriveLevel` (l.328-335): `const s = Math.round(Number(score) || 0)`
followed by the fixed thresholds.  Its only call site passes a number, so the
argument is modelled as a `JsNum` (on numbers `Number` is the identity and
`x || 0` replaces the falsy values NaN and 0 by 0). -/
def deriveLevel (score : JsNum) : String :=
  let x : JsNum := if jsTruthy (.num score) then score else .fin (intToRq 0)
  let s := jsRound x
  if jsGe s 10 then "Native-like"
  else if jsGe s 9 then "Near-native"
  else if jsGe s 7 then "Advanced"
  else if jsGe s 5 then "Intermediate"
  else "Beginner"

/-- `Array.isArray(out) ? out[0] : out` (l.338): an array is replaced by its
first element (`undefined` when empty). -/
def headOrSelf : Js → Js
  | .arr xs => xs.headD .undef
  | v => v

/-- `Number(obj?.score ?? 0)` (l.339): absent, `undefined` or `null` score
defaults to 0 before coercion; any other value goes through `ToNumber`. -/
def scoreRaw (obj : Js) : JsNum :=
  match jsGetField obj "score" with
  | none => .fin (intToRq 0)
  | some .undef => .fin (intToRq 0)
  | some .null => .fin (intToRq 0)
  | some v => jsToNumber v

/-- `Math.max(0, Math.min(10, Math.round(n)))` (l.339). -/
def clampScore (n : JsNum) : JsNum :=
  jsMax (.fin (intToRq 0)) (jsMin (.fin (intToRq 10)) (jsRound n))

/-- `Array.isArray(obj?.suggestions) ? obj.suggestions : []` (l.340). -/
def suggRaw (obj : Js) : List Js :=
  match jsGetField obj "suggestions" with
  | some (.arr xs) => xs
  | _ => []

/-- The `cleaned` list (l.341-343): keep trimmed strings, replace non-strings
by the empty string, then drop empties. -/
def cleanSugg (xs : List Js) : List String :=
  (xs.map (fun v => match v with | .str s => jsTrim s | _ => "")).filter
    (fun s => decide (0 < s.length))

/-- The de-duplication key (l.349): `s.toLowerCase().replace(/\W+/g, " ").trim()`. -/
def normKey (s : String) : String := jsTrim ⟨collapseRuns (jsToLower s).data⟩

/-- The denylist test (l.351):
`/(practice more|improve vocabulary|work on grammar|be concise)/i.test(s)`. -/
def isGeneric (s : String) : Bool :=
  listHasSub "practice more".data (jsToLower s).data ||
  listHasSub "improve vocabulary".data (jsToLower s).data ||
  listHasSub "work on grammar".data (jsToLower s).data ||
  listHasSub "be concise".data (jsToLower s).data

/-- The `deDuped` loop (l.346-354): skip short keys and denylisted entries,
keep the first entry for each key, stop as soon as six entries are collected. -/
def dedupLoop (seen acc : List String) : List String → List String
  | [] => acc
  | s :: rest =>
    let key := normKey s
    if key.length < 6 then dedupLoop seen acc rest
    else if isGeneric s then dedupLoop seen acc rest
    else
      let seen2 := if seen.contains key then seen else key :: seen
      let acc2 := if seen.contains key then acc else acc ++ [s]
      if 6 ≤ acc2.length then acc2 else dedupLoop seen2 acc2 rest

def dedupSugg (l : List String) : List String := dedupLoop [] [] l

/-- The `reasons` field (l.359):
`(obj?.reasons && String(obj.reasons).trim()) || "Results normalized."`. -/
def reasonsOf (obj : Js) : String :=
  match jsGetField obj "reasons" with
  | none => "Results normalized."
  | some v =>
    if jsTruthy v then
      let t := jsTrim (jsToString v)
      if t == "" then "Results normalized." else t
    else "Results normalized."

/-- The fixed fallback suggestion list (l.360-365). -/
def fallbackSuggestions : List String :=
  [ "Vary sentence openings and use cohesive devices (e.g., moreover, however)."
  , "Explain idioms with meaning + one precise example."
  , "Combine provided fragments with natural connectors; avoid run-ons."
  , "Use third conditional correctly: \x27If I had known, I would have ...\x27." ]

/-- The output contract object. -/
structure AssessResult where
  score : JsNum
  level : String
  reasons : String
  suggestions : List String
deriving DecidableEq, Repr

/-- `normalizeResult` (l.337-367). -/
def normalizeResult (out : Js) : AssessResult :=
  let obj := headOrSelf out
  let scoreNum := clampScore (scoreRaw obj)
  let deDuped := dedupSugg (cleanSugg (suggRaw obj))
  { score := scoreNum
  , level := deriveLevel scoreNum
  , reasons := reasonsOf obj
  , suggestions := if deDuped.isEmpty then fallbackSuggestions else deDuped }

/-- The returned object, viewed again as a JavaScript value (used to feed the
normalizer its own output for the idempotence property). -/
def resultToJs (r : AssessResult) : Js :=
  .obj [ ("score", .num r.score)
       , ("level", .str r.level)
       , ("reasons", .str r.reasons)
       , ("suggestions", .arr (r.suggestions.map .str)) ]

/-! ## Specification-side definitions (following the wording of the spec) -/

/-- The fixed score-to-level thresholds exactly as the spec states them
(score ≥ 10 is Native-like, ≥ 9 Near-native, ≥ 7 Advanced, ≥ 5 Intermediate,
otherwise Beginner), read with JavaScript comparison semantics. -/
def levelFromScore (n : JsNum) : String :=
  if jsGe n 10 then "Native-like"
  else if jsGe n 9 then "Near-native"
  else if jsGe n 7 then "Advanced"
  else if jsGe n 5 then "Intermediate"
  else "Beginner"

/-- Integer clamp of the rounded value into `[0, 10]`. -/
def roundClampZ (q : Rq) : Int := max 0 (min 10 (rqRound q))

/-- The score normalization rule as amended: the score defaults to 0 only when
the field is missing, `undefined` or `null`; any other value is coerced with
JavaScript `Number` semantics, NaN propagates through rounding and clamping,
infinities clamp to the nearest bound, and finite values are rounded to the
nearest integer (halves up) and clamped into `[0, 10]`. -/
def scoreNormSpec (cand : Js) : JsNum :=
  let obj := headOrSelf cand
  match jsGetField obj "score" with
  | none => .fin (intToRq 0)
  | some .undef => .fin (intToRq 0)
  | some .null => .fin (intToRq 0)
  | some v =>
    match jsToNumber v with
    | .nan => .nan
    | .posInf => .fin (intToRq 10)
    | .negInf => .fin (intToRq 0)
    | .fin q => .fin (intToRq (roundClampZ q))

/-! ## JSON parsing (`JSON.parse`) -/

/-- The JSON whitespace characters (space, tab, line feed, carriage return). -/
def jsonWs (c : Char) : Bool := c == ' ' || c == '\t' || c == '\n' || c == '\r'

/-- Is this character one that continues a JSON number (used to state where a
printed number must stop being re-parsed)? -/
def numCont (c : Char) : Bool := isDigitCh c || c == '.' || c == 'e' || c == 'E'

/-- Tokenize the body of a JSON string after the opening quote into UTF-16
code units: returns the units and the input following the closing quote.
Escapes are those of JSON; invalid escapes and raw control characters are
rejected, as in `JSON.parse`. -/
def strUnits : List Char → Option (List Nat × List Char)
  | [] => none
  | '"' :: rest => some ([], rest)
  | '\\' :: esc =>
    match esc with
    | '"' :: r => (strUnits r).map (fun p => (34 :: p.1, p.2))
    | '\\' :: r => (strUnits r).map (fun p => (92 :: p.1, p.2))
    | '/' :: r => (strUnits r).map (fun p => (47 :: p.1, p.2))
    | 'b' :: r => (strUnits r).map (fun p => (8 :: p.1, p.2))
    | 'f' :: r => (strUnits r).map (fun p => (12 :: p.1, p.2))
    | 'n' :: r => (strUnits r).map (fun p => (10 :: p.1, p.2))
    | 'r' :: r => (strUnits r).map (fun p => (13 :: p.1, p.2))
    | 't' :: r => (strUnits r).map (fun p => (9 :: p.1, p.2))
    | 'u' :: h1 :: h2 :: h3 :: h4 :: r =>
      match hexDigitVal h1, hexDigitVal h2, hexDigitVal h3, hexDigitVal h4 with
      | some a, some b, some c, some d =>
        (strUnits r).map (fun p => ((((a * 16 + b) * 16 + c) * 16 + d) :: p.1, p.2))
      | _, _, _, _ => none
    | _ => none
  | c :: rest =>
    if c.toNat < 0x20 then none
    else (strUnits rest).map (fun p => (c.toNat :: p.1, p.2))

/-- Recombine UTF-16 code units into Unicode scalars: surrogate pairs combine
into one character and lone surrogates become U+FFFD (Lean characters are
Unicode scalars while JavaScript strings are UTF-16 sequences; the difference
is unreachable from the serializations considered in the claims).  The first
argument is a pending high surrogate. -/
def unitsToChars : Option Nat → List Nat → List Char
  | some _, [] => ['\uFFFD']
  | none, [] => []
  | some hi, u :: rest =>
    if 0xDC00 ≤ u && u ≤ 0xDFFF then
      Char.ofNat (0x10000 + (hi - 0xD800) * 0x400 + (u - 0xDC00)) :: unitsToChars none rest
    else if 0xD800 ≤ u && u ≤ 0xDBFF then '\uFFFD' :: unitsToChars (some u) rest
    else '\uFFFD' :: Char.ofNat u :: unitsToChars none rest
  | none, u :: rest =>
    if 0xD800 ≤ u && u ≤ 0xDBFF then unitsToChars (some u) rest
    else if 0xDC00 ≤ u && u ≤ 0xDFFF then '\uFFFD' :: unitsToChars none rest
    else Char.ofNat u :: unitsToChars none rest

/-- Decode the body of a JSON string after the opening quote: returns the
decoded characters and the input following the closing quote. -/
def parseStringBody (l : List Char) : Option (List Char × List Char) :=
  (strUnits l).map (fun p => (unitsToChars none p.1, p.2))

/-- Parse an unsigned JSON number (strict JSON grammar: `0` or a nonzero-led
digit string, optional fraction, optional exponent). -/
def parseJsonUnsigned (l : List Char) : Option (Rq × List Char) :=
  match l with
  | '0' :: r =>
    if (r.headD ' ').isDigit then none else afterInt 0 r
  | c :: _ =>
    if isDigitCh c && c != '0' then
      let (ds, r2) := spanDigits l
      afterInt (digitsVal ds) r2
    else none
  | [] => none
where
  afterInt (ip : Nat) (r : List Char) : Option (Rq × List Char) :=
    let (fp, flen, r2) := match r with
      | '.' :: rf =>
        let (ds, rr) := spanDigits rf
        (digitsVal ds, ds.length, if ds.isEmpty then ['.'] ++ rf else rr)
      | _ => (0, 0, r)
    match r with
    | '.' :: rf => if (spanDigits rf).1.isEmpty then none else afterExp ip fp flen r2
    | _ => afterExp ip fp flen r2
  afterExp (ip fp flen : Nat) (r : List Char) : Option (Rq × List Char) :=
    match r with
    | 'e' :: rr => expTail ip fp flen rr
    | 'E' :: rr => expTail ip fp flen rr
    | _ => some (decimalValue ip fp flen 0, r)
  expTail (ip fp flen : Nat) (r : List Char) : Option (Rq × List Char) :=
    let (eneg, r1) := match r with
      | '+' :: rr => (false, rr)
      | '-' :: rr => (true, rr)
      | _ => (false, r)
    let (ds, r2) := spanDigits r1
    if ds.isEmpty then none
    else
      let e : Int := if eneg then -(digitsVal ds : Int) else (digitsVal ds : Int)
      some (decimalValue ip fp flen e, r2)

/-- Parse a JSON number (optional minus, then an unsigned literal). -/
def parseJsonNumber (l : List Char) : Option (Rq × List Char) :=
  match l with
  | '-' :: r => (parseJsonUnsigned r).map (fun p => (rqNeg p.1, p.2))
  | _ => parseJsonUnsigned l

/-- JavaScript object construction from parsed members: later duplicate keys
overwrite the value kept at the first occurrence position. -/
def assignKey (m : List (String × Js)) (kv : String × Js) : List (String × Js) :=
  if m.any (fun p => p.1 == kv.1) then
    m.map (fun p => if p.1 == kv.1 then (p.1, kv.2) else p)
  else m ++ [kv]

def buildObj (pairs : List (String × Js)) : List (String × Js) :=
  pairs.foldl assignKey []

mutual

/-- Fuel-indexed JSON value parser (recursive descent; the fuel only bounds
the nesting recursion and is irrelevant once it exceeds the value size). -/
def parseValue : Nat → List Char → Option (Js × List Char)
  | 0, _ => none
  | fuel + 1, l0 =>
    match l0.dropWhile jsonWs with
    | '{' :: r =>
      match r.dropWhile jsonWs with
      | '}' :: r2 => some (.obj [], r2)
      | r2 => (parseMembers fuel r2).map (fun p => (.obj (buildObj p.1), p.2))
    | '[' :: r =>
      match r.dropWhile jsonWs with
      | ']' :: r2 => some (.arr [], r2)
      | r2 => (parseElems fuel r2).map (fun p => (.arr p.1, p.2))
    | '"' :: r => (parseStringBody r).map (fun p => (.str ⟨p.1⟩, p.2))
    | 't' :: 'r' :: 'u' :: 'e' :: r => some (.bool true, r)
    | 'f' :: 'a' :: 'l' :: 's' :: 'e' :: r => some (.bool false, r)
    | 'n' :: 'u' :: 'l' :: 'l' :: r => some (.null, r)
    | l => (parseJsonNumber l).map (fun p => (.num (.fin p.1), p.2))

/-- Parse one or more comma-separated array elements followed by `]`. -/
def parseElems : Nat → List Char → Option (List Js × List Char)
  | 0, _ => none
  | fuel + 1, l =>
    match parseValue fuel l with
    | none => none
    | some (v, rest) =>
      match rest.dropWhile jsonWs with
      | ',' :: r2 =>
        match parseElems fuel r2 with
        | some (vs, r3) => some (v :: vs, r3)
        | none => none
      | ']' :: r2 => some ([v], r2)
      | _ => none

/-- Parse one or more comma-separated `"key": value` members followed by `}`. -/
def parseMembers : Nat → List Char → Option (List (String × Js) × List Char)
  | 0, _ => none
  | fuel + 1, l =>
    match l with
    | '"' :: r =>
      match parseStringBody r with
      | none => none
      | some (key, r2) =>
        match r2.dropWhile jsonWs with
        | ':' :: r3 =>
          match parseValue fuel r3 with
          | none => none
          | some (v, r4) =>
            match r4.dropWhile jsonWs with
            | ',' :: r5 =>
              match parseMembers fuel (r5.dropWhile jsonWs) with
              | some (ms, r6) => some ((⟨key⟩, v) :: ms, r6)
              | none => none
            | '}' :: r5 => some ([(⟨key⟩, v)], r5)
            | _ => none
        | _ => none
    | _ => none

end

/-- `JSON.parse`: parse one value and require only whitespace to remain. -/
def jsonParse (s : String) : Option Js :=
  match parseValue (s.data.length + 1) s.data with
  | some (v, rest) => if rest.dropWhile jsonWs = [] then some v else none
  | none => none

/-! ## The JSON extractor (`extractJson`, l.317-326) -/

/-- The backtick character (written by code to avoid fence markers in this
file's source). -/
def btChar : Char := Char.ofNat 96

/-- Does the input start with three backticks? -/
def startsTriple (l : List Char) : Bool := listStartsWith l [btChar, btChar, btChar]

/-- Capture characters lazily up to (excluding) the next triple backtick;
`none` if there is none. -/
def captureUntilTriple : List Char → Option (List Char)
  | [] => none
  | c :: t => if startsTriple (c :: t) then some [] else (captureUntilTriple t).map (c :: ·)

/-- Case-insensitive test for a leading `json` tag. -/
def matchesJsonCI : List Char → Bool
  | a :: b :: c :: d :: _ =>
    charLower a == 'j' && charLower b == 's' && charLower c == 'o' && charLower d == 'n'
  | _ => false

/-- The capture group of `/(?:```)(?:json)?\s*([\s\S]*?)(?:```)/i` after the
opening triple: an optional case-insensitive `json` tag, a maximal whitespace
run, then the lazily captured interior up to the first closing triple. -/
def fenceAfterOpen (l : List Char) : Option (List Char) :=
  let l1 := if matchesJsonCI l then l.drop 4 else l
  captureUntilTriple (l1.dropWhile jsIsWhite)

/-- First match of the fence regexp: try each opening triple left to right and
return the first position from which a closing triple exists. -/
def findFenceL : List Char → Option (List Char)
  | [] => none
  | c :: rest =>
    if startsTriple (c :: rest) then
      match fenceAfterOpen (rest.drop 2) with
      | some g => some g
      | none => findFenceL rest
    else findFenceL rest

/-- Index of the first occurrence of a character (JavaScript `indexOf`). -/
def idxOfGo (c : Char) : List Char → Nat → Option Nat
  | [], _ => none
  | a :: t, i => if a == c then some i else idxOfGo c t (i + 1)

def firstIdxOf (c : Char) (l : List Char) : Option Nat := idxOfGo c l 0

/-- Index of the last occurrence of a character (JavaScript `lastIndexOf`). -/
def lastIdxOf (c : Char) (l : List Char) : Option Nat :=
  (idxOfGo c l.reverse 0).map (fun i => l.length - 1 - i)

/-- Slice from the first `{` to the last `}` inclusive when the latter comes
strictly after the former; otherwise the text is left unchanged (l.322-324). -/
def braceSliceL (l : List Char) : List Char :=
  match firstIdxOf '{' l, lastIdxOf '}' l with
  | some i, some j => if i < j then (l.take (j + 1)).drop i else l
  | _, _ => l

/-- `extractJson` (l.317-326): reject empty input, trim, replace the text by
the first fenced block's interior when the capture group is non-empty, slice
to the outermost braces, and `JSON.parse` the result (`none` models the
thrown exception). -/
def extractJson (raw : String) : Option Js :=
  if raw == "" then none
  else
    let s := jsTrim raw
    let s2 : String := match findFenceL s.data with
      | some g => if g.isEmpty then s else jsTrim ⟨g⟩
      | none => s
    jsonParse ⟨braceSliceL s2.data⟩

/-! ## JSON serialization (the claim-side model of `JSON.stringify`, used to
state the extractor round-trip) -/

/-- Lowercase hexadecimal digit. -/
def hexDigitChar (n : Nat) : Char :=
  if n < 10 then digitChar n else Char.ofNat (87 + n)

/-- JSON string escaping of one character, as `JSON.stringify` performs it. -/
def escChar (c : Char) : List Char :=
  if c == '"' then ['\\', '"']
  else if c == '\\' then ['\\', '\\']
  else if c == '\x08' then ['\\', 'b']
  else if c == '\t' then ['\\', 't']
  else if c == '\n' then ['\\', 'n']
  else if c == '\x0c' then ['\\', 'f']
  else if c == '\r' then ['\\', 'r']
  else if c.toNat < 0x20 then
    ['\\', 'u', '0', '0', hexDigitChar (c.toNat / 16), hexDigitChar (c.toNat % 16)]
  else [c]

def escString : List Char → List Char
  | [] => []
  | c :: r => escChar c ++ escString r

mutual

/-- Compact JSON serialization of a value (`JSON.stringify` with no spacing;
NaN, infinities and `undefined` print as `null`, which is what `stringify`
does for them in array positions). -/
def printV : Js → List Char
  | .undef => "null".data
  | .null => "null".data
  | .bool true => "true".data
  | .bool false => "false".data
  | .num (.fin q) => printNum q
  | .num _ => "null".data
  | .str s => '"' :: (escString s.data ++ ['"'])
  | .arr [] => "[]".data
  | .arr (x :: xs) => '[' :: (printV x ++ printTailL xs)
  | .obj [] => "{}".data
  | .obj (m :: ms) => '{' :: (printKV m ++ printTailM ms)

def printKV : String × Js → List Char
  | (k, v) => '"' :: (escString k.data ++ '"' :: ':' :: printV v)

def printTailL : List Js → List Char
  | [] => [']']
  | y :: ys => ',' :: (printV y ++ printTailL ys)

def printTailM : List (String × Js) → List Char
  | [] => ['}']
  | m :: ms => ',' :: (printKV m ++ printTailM ms)

end

/-- Serialization of a JSON value as a string. -/
def jsonStringify (v : Js) : String := ⟨printV v⟩

/-- Canonical rational: nonzero denominator coprime to the numerator.  Every
value built by `rqMk` has this shape. -/
def rqCanon (q : Rq) : Bool := q.den != 0 && Nat.gcd q.num.natAbs q.den == 1

/-- Does the denominator divide a power of ten?  True exactly for the
rationals that are exact decimal fractions — in particular for the value of
every finite double. -/
def rqDecadic (q : Rq) : Bool :=
  10 ^ (max (multOf 2 q.den) (multOf 5 q.den)) % q.den == 0

def keysNodupB : List String → Bool
  | [] => true
  | k :: t => !(t.contains k) && keysNodupB t

mutual

/-- A well-formed JSON value: no `undefined`, finite canonical decimal
numbers, and objects with pairwise distinct keys — i.e. exactly the values
`JSON.parse` can produce under the exact-rational reading of doubles. -/
def pureV : Js → Bool
  | .undef => false
  | .null => true
  | .bool _ => true
  | .num (.fin q) => rqCanon q && rqDecadic q
  | .num _ => false
  | .str _ => true
  | .arr xs => pureL xs
  | .obj ms => keysNodupB (ms.map Prod.fst) && pureM ms

def pureL : List Js → Bool
  | [] => true
  | x :: xs => pureV x && pureL xs

def pureM : List (String × Js) → Bool
  | [] => true
  | (_, v) :: ms => pureV v && pureM ms

end

mutual

/-- Size measure used to discharge the parser fuel in the round-trip proof. -/
def szV : Js → Nat
  | .arr xs => szL xs + 1
  | .obj ms => szM ms + 1
  | _ => 1

def szL : List Js → Nat
  | [] => 1
  | x :: xs => max (szV x) (szL xs) + 1

def szM : List (String × Js) → Nat
  | [] => 1
  | (_, v) :: ms => max (szV v) (szM ms) + 1

end

/-! ## The completion pipeline (`src/server/index.js` l.272-309, l.369-413, l.424-469) -/

/-- `SYSTEM_PROMPT` (l.272-276), the three segments joined by spaces. -/
def SYSTEM_PROMPT : String :=
  "You are a calibrated linguistics examiner. Return EXACTLY ONE JSON object. No markdown fences. No commentary before or after. Tailor feedback to the user’s actual answers; avoid boilerplate."

/-- `STRICT_JSON_INSTR` (l.278-309), the full rubric prompt (verbatim template
literal contents). -/
def STRICT_JSON_INSTR : String :=
  "\nYou are evaluating a four-part English proficiency task. Return ONLY one JSON object (no fences):\n\n\x7b\n \"score\": number,                 // integer 0–10 overall, using the weights below\n \"level\": \"Beginner\"|\"Intermediate\"|\"Advanced\"|\"Near-native\"|\"Native-like\",\n \"reasons\": string,               // 2–4 sentences. Be SPECIFIC to the user\x27s errors/strengths.\n \"suggestions\": string[]          // 3–6 concise, targeted actions tied to the user\x27s responses\n\x7d\n\nTasks that the user answered (the answers follow AFTER this spec):\n1) Part 1 — \"Write a short paragraph.\"\n2) Part 2 — \"Explain the idiom \x27blessing in disguise\x27.\"\n3) Part 3 — \"Use these fragments in a sentence: \x27in the evening; suggested going; looking forward to meeting\x27.\"\n4) Part 4 — \"Fill in two blanks and reproduce the complete sentence: If I ___ known, I would have ___.\" (Expect: \"had known\" and a correct perfect conditional.)\n\nWeights: Part1 40%, Part2 20%, Part3 20%, Part4 20%.\n\nScoring rubric (anchor):\n0–2: heavy grammar/usage errors; unclear meaning\n3–4: frequent errors; limited cohesion or idiomatic control\n5–6: mostly correct; some issues with cohesion/idioms/style\n7–8: strong control; minor style or idiom slips\n9: near-native; rare slips\n10: native-like\n\nImportant output rules:\n- Output ONLY the JSON object, no extra text.\n- reasons: MUST reference concrete issues present (e.g., tense error in Part 4, vague idiom explanation in Part 2, unnatural collocation in Part 3). Avoid generic phrases like \"practice more\".\n- suggestions: MUST be specific and actionable (e.g., \"Practice third conditional: \x27If I had known, I would have ...\x27\"). Avoid duplicates and vague advice.\n- Keep wording tight and non-repetitive.\n"

/-- The shortened, stricter retry prompt (l.456): the bare schema with no
rubric text. -/
def retryInstr : String :=
  "Return JSON ONLY (no markdown): \x7b\"score\":0-10,\"level\":\"...\",\"reasons\":\"...\",\"suggestions\":[\"...\"]\x7d"

/-- One attempt record: the exact arguments of one outbound completion call
(`client.chat.completions.create` in `callOnce`, l.369-387). -/
structure CallRec where
  model : String
  useJsonFormat : Bool
  maxTokens : Nat
  system : String
  user : String
deriving DecidableEq, Repr

/-- The upstream network, modelled as a deterministic oracle from the
arguments of one completion call to either the returned text or a thrown
error message.  Each distinct argument tuple is invoked at most once per
request, so a deterministic oracle loses no generality. -/
def Oracle : Type := String → Bool → Nat → String → String → Except String String

/-- `callOnce` (l.369-387): one completion call with the given model, JSON
response-format flag and token budget; errors bubble up to the caller. -/
def callOnce (oracle : Oracle) (model : String) (useJsonFormat : Bool) (maxTokens : Nat)
    (system user : String) : Except String String :=
  oracle model useJsonFormat maxTokens system user

/-- The attempt loop of `robustAsk` (l.394-412) over the remaining models,
carrying `lastError`; also returns the list of completion calls actually
made, in order. -/
def robustAskGo (oracle : Oracle) (system user : String) :
    List String → Option String → Except String (String × String) × List CallRec
  | [], last => (.error (match last with | some e => e | none => "All model attempts failed"), [])
  | m :: ms, _ =>
    match callOnce oracle m true 700 system user with
    | .ok raw => (.ok (raw, m), [⟨m, true, 700, system, user⟩])
    | .error _ =>
      match callOnce oracle m false 550 system user with
      | .ok raw => (.ok (raw, m), [⟨m, true, 700, system, user⟩, ⟨m, false, 550, system, user⟩])
      | .error e2 =>
        let p := robustAskGo oracle system user ms (some e2)
        (p.1, ⟨m, true, 700, system, user⟩ :: ⟨m, false, 550, system, user⟩ :: p.2)

/-- `robustAsk` (l.389-413): build the prompt once, then try the preferred
model followed by the configured fallbacks, each first with the JSON response
format (700 tokens) and then without it (550 tokens); return the first
successful raw text together with the model that produced it, or throw the
last recorded error. -/
def robustAsk (oracle : Oracle) (preferredModel : String) (fallbackModels : List String)
    (userText : String) : Except String (String × String) × List CallRec :=
  robustAskGo oracle SYSTEM_PROMPT (STRICT_JSON_INSTR ++ "\n\nUser responses:\n" ++ userText)
    (preferredModel :: fallbackModels) none

/-- The request-body validation `AnswersSchema` (l.312-314):
`z.object({ answers: z.array(z.string().min(1)).length(4) })` — an object
whose `answers` field is an array of exactly 4 strings, each of length at
least 1 (zod does not trim). -/
def parseAnswers (body : Js) : Option (String × String × String × String) :=
  match jsGetField body "answers" with
  | some (.arr [.str a1, .str a2, .str a3, .str a4]) =>
    if 0 < a1.length && 0 < a2.length && 0 < a3.length && 0 < a4.length then
      some (a1, a2, a3, a4)
    else none
  | _ => none

/-- The user text assembled from the four answers (l.443-448). -/
def buildUserText (a1 a2 a3 a4 : String) : String :=
  "Part 1:\n" ++ a1 ++ "\n\nPart 2:\n" ++ a2 ++ "\n\nPart 3:\n" ++ a3 ++ "\n\nPart 4:\n" ++ a4

/-- Server configuration read from the environment at startup. -/
structure Config where
  defaultModel : String
  fallbackModels : List String
  debugSecret : String

/-- An incoming `/assess` request: the parsed JSON body and the relevant
query parameters (each `none` when absent). -/
structure AssessReq where
  body : Js
  qdebug : Option String
  qsecret : Option String
  qmock : Option String
  qmodel : Option String

/-- The JSON response bodies the `/assess` handler can produce, paired with
their status codes by `assessHandler`. -/
inductive RespBody where
  | badInput
  | assessment (r : AssessResult) (metaModel : String)
  | debugRaws (raw1 raw2 used2 : String)
  | failure (msg : String) (metaModel : String)
  | parseFailure (metaModel : String)
deriving DecidableEq, Repr

/-- The fixed mock result (l.433-441). -/
def mockResult : AssessResult :=
  { score := .fin (intToRq 8)
  , level := "Advanced"
  , reasons := "Strong grammar; idiom accurate; fragments natural; minor stylistic issues."
  , suggestions := ["Vary transitions.", "Tighten phrasing.", "Use richer connectors."] }

/-- The `/assess` handler (l.424-469) as a function of the configuration, the
upstream oracle and the request; returns the HTTP status with the response
body, together with the list of upstream completion calls made, in order.
The `parseFailure` constructor models the JSON-parse exception message
surfaced by the final `catch`. -/
def assessHandler (cfg : Config) (oracle : Oracle) (req : AssessReq) :
    (Nat × RespBody) × List CallRec :=
  let debug := req.qdebug == some "1" && req.qsecret == some cfg.debugSecret
  let modelOverride : Option String :=
    match req.qmodel with
    | some m => if m != "" && req.qsecret == some cfg.debugSecret then some m else none
    | none => none
  match parseAnswers req.body with
  | none => ((400, .badInput), [])
  | some (a1, a2, a3, a4) =>
    if req.qmock == some "1" then
      ((200, .assessment mockResult (modelOverride.getD cfg.defaultModel)), [])
    else
      let userText := buildUserText a1 a2 a3 a4
      let preferred := modelOverride.getD cfg.defaultModel
      let r1 := robustAsk oracle preferred cfg.fallbackModels userText
      match r1.1 with
      | .error e => ((500, .failure e cfg.defaultModel), r1.2)
      | .ok (raw, usedModel) =>
        match extractJson raw with
        | some out => ((200, .assessment (normalizeResult out) usedModel), r1.2)
        | none =>
          let r2 := robustAsk oracle preferred cfg.fallbackModels (retryInstr ++ "\n\n" ++ userText)
          match r2.1 with
          | .error e => ((500, .failure e cfg.defaultModel), r1.2 ++ r2.2)
          | .ok (raw2, used2) =>
            if debug then ((500, .debugRaws raw raw2 used2), r1.2 ++ r2.2)
            else
              match extractJson raw2 with
              | some out => ((200, .assessment (normalizeResult out) usedModel), r1.2 ++ r2.2)
              | none => ((500, .parseFailure cfg.defaultModel), r1.2 ++ r2.2)

/-! ## The availability prober (`wakeServer`, `src/web/src/App.jsx` l.12-25) -/

/-- Outcome of one probe request: a thrown network error or an HTTP status. -/
def ProbeResult : Type := Except Unit Nat

/-- Does a probe response count as awake?  `r.ok || (r.status >= 200 &&
r.status < 400)` — i.e. any status in `[200, 400)`; a thrown fetch error does
not. -/
def probeOk (r : ProbeResult) : Bool :=
  match r with
  | .ok s => 200 ≤ s && s < 400
  | .error _ => false

/-- One attempt of the wake loop: a HEAD probe, then — only when the HEAD
request returned a non-success status (a throw skips it) — a GET probe on the
same attempt. -/
def probeSucceeds (heads gets : Nat → ProbeResult) (n : Nat) : Bool :=
  match heads n with
  | .ok s => if 200 ≤ s && s < 400 then true else probeOk (gets n)
  | .error _ => false

/-- The wake loop (l.14-23), indexed by the remaining attempts: on success
return the attempt number; otherwise sleep the current backoff, double it up
to the 7000 ms cap and continue.  Returns the successful attempt (or `none`
after the ceiling) together with the list of sleeps performed, in order. -/
def wakeGo (heads gets : Nat → ProbeResult) :
    Nat → Nat → Nat → Option Nat × List Nat
  | 0, _, _ => (none, [])
  | remaining + 1, attempt, backoff =>
    if probeSucceeds heads gets attempt then (some attempt, [])
    else
      let p := wakeGo heads gets remaining (attempt + 1) (min (backoff * 2) 7000)
      (p.1, backoff :: p.2)

/-- `wakeServer` (l.12-25): up to `maxAttempts` attempts starting from attempt
1 with the starting backoff; `(none, _)` models the single thrown
`"Server did not wake in time"` error after the ceiling. -/
def wakeServer (heads gets : Nat → ProbeResult) (maxAttempts startBackoffMs : Nat) :
    Option Nat × List Nat :=
  wakeGo heads gets maxAttempts 1 startBackoffMs

/-! ## Specification-side definitions for the orchestrator, handler and prober -/

/-- The ordered attempt list as the spec describes it: the primary model with
schema-constrained mode then relaxed mode, then each fallback model in list
order, constrained then relaxed (with the token budgets the code uses). -/
def attemptSpecList : List String → List (String × Bool × Nat)
  | [] => []
  | m :: ms => (m, true, 700) :: (m, false, 550) :: attemptSpecList ms

/-- Specification-side scan: try the attempts strictly in order, return the
raw text (and model) of the first attempt whose completion call succeeds, and
raise the last recorded attempt error once every attempt has failed. -/
def scanAttempts (oracle : Oracle) (system user : String) :
    List (String × Bool × Nat) → Option String → Except String (String × String) × List CallRec
  | [], last => (.error (match last with | some e => e | none => "All model attempts failed"), [])
  | (m, j, t) :: rest, _ =>
    match oracle m j t system user with
    | .ok raw => (.ok (raw, m), [⟨m, j, t, system, user⟩])
    | .error e =>
      let p := scanAttempts oracle system user rest (some e)
      (p.1, ⟨m, j, t, system, user⟩ :: p.2)

/-- Does one attempt's completion call succeed? -/
def attemptOk (oracle : Oracle) (system user : String) (a : String × Bool × Nat) : Bool :=
  match oracle a.1 a.2.1 a.2.2 system user with
  | .ok _ => true
  | .error _ => false

/-- Is an `Except` a success? -/
def exceptIsOk {ε α : Type} : Except ε α → Bool
  | .ok _ => true
  | .error _ => false

/-- The claim-side request validity predicate, as C8 words it before
amendment would weaken it: the body carries exactly 4 answers, each a
non-empty string (zod checks rawness, not trimmed content; the amended claim
drops "after trimming"). -/
def bodyValidSpec (b : Js) : Prop :=
  ∃ a1 a2 a3 a4 : String,
    jsGetField b "answers" = some (.arr [.str a1, .str a2, .str a3, .str a4]) ∧
    a1 ≠ "" ∧ a2 ≠ "" ∧ a3 ≠ "" ∧ a4 ≠ ""

/-- Number of failing attempts before the first success in the window of
`remaining` attempts starting at `attempt` (or the window size if none
succeeds). -/
def stepsUntil (p : Nat → Bool) : Nat → Nat → Nat
  | 0, _ => 0
  | remaining + 1, attempt =>
    if p attempt then 0 else stepsUntil p remaining (attempt + 1) + 1

/-- The first index at or after `a` within a window of `r` indices satisfying
`p`. -/
def firstFromSpec (p : Nat → Bool) : Nat → Nat → Option Nat
  | 0, _ => none
  | r + 1, a => if p a then some a else firstFromSpec p r (a + 1)

/-- The first attempt number in `[1, maxAttempts]` whose probe succeeds. -/
def firstProbeSuccess (heads gets : Nat → ProbeResult) (maxAttempts : Nat) : Option Nat :=
  (((List.range maxAttempts).map (fun i => i + 1)).filter
    (probeSucceeds heads gets)).head?

/-- The sequence of `k` backoff delays starting from `b`, doubling up to the
7000 ms cap. -/
def backoffSeq (b : Nat) : Nat → List Nat
  | 0 => []
  | k + 1 => b :: backoffSeq (min (b * 2) 7000) k

/-- Scenario oracle for the prober claim: HEAD returns 503 on the first two
attempts and 200 on the third. -/
def heads3 : Nat → ProbeResult := fun n => .ok (if 3 ≤ n then 200 else 503)

/-- Scenario oracle for the prober claim: GET always returns 503. -/
def gets3 : Nat → ProbeResult := fun _ => .ok 503

/-- The names the level field may take. -/
def levelNames : List String :=
  ["Beginner", "Intermediate", "Advanced", "Near-native", "Native-like"]

/-- Does a normalized score meet the output contract's score clause as
originally claimed (an integer in `[0, 10]`)? -/
def scoreIsContractInt (n : JsNum) : Bool :=
  match n with
  | .fin q => q.den == 1 && 0 ≤ q.num && q.num ≤ 10
  | _ => false

/-! ## Concrete fixtures used by witnesses and counterexamples -/

/-- A concrete configuration. -/
def cfgEx : Config := ⟨"model-a", ["model-b"], "s3cret"⟩

/-- An oracle that always succeeds with a fixed JSON text. -/
def oracleAlwaysOk : Oracle := fun _ _ _ _ _ => .ok "\x7b\"score\":5\x7d"

/-- A request whose first answer is whitespace-only (non-empty but blank
after trimming), with no query parameters. -/
def reqBlankAnswer : AssessReq :=
  ⟨.obj [("answers", .arr [.str " ", .str "a", .str "b", .str "c"])], none, none, none, none⟩

/-- A request with four proper answers and no query parameters. -/
def reqPlain : AssessReq :=
  ⟨.obj [("answers", .arr [.str "one", .str "two", .str "three", .str "four"])],
    none, none, none, none⟩

/-- An oracle under which the first orchestrator round succeeds on the
primary model with non-JSON text, while in the retry round (recognizable by
the bare-schema instruction occurring inside the composed user text) the
primary model fails and the fallback model answers with valid JSON. -/
def oracleRetryDemo : Oracle := fun m _ _ _ user =>
  if listHasSub "Return JSON ONLY".data user.data then
    (if m == "model-a" then .error "boom"
     else .ok "\x7b\"score\":7,\"reasons\":\"ok\",\"suggestions\":[]\x7d")
  else .ok "no json here"

/-- The continuations a printed JSON value is followed by inside a larger
serialization: nothing, or a separator/closer.  Each of these stops the
number grammar, so a printed token is re-read exactly. -/
def restStop : List Char → Prop
  | [] => True
  | c :: _ => c = ',' ∨ c = ']' ∨ c = '}'

/-- A triple-backtick code fence tagged `json` around a serialized value
(the fence characters are spelled via `btChar`). -/
def fenceWrap (s : String) : String :=
  ⟨btChar :: btChar :: btChar :: 'j' :: 's' :: 'o' :: 'n' :: '\n' ::
    (s.data ++ '\n' :: btChar :: btChar :: btChar :: [])⟩

/-- A concrete well-formed object used to exercise the extractor. -/
def vEx5 : Js := .obj [("score", .num (.fin (intToRq 7)))]

/-! # Theorems -/

theorem rqRound_int (k : Int) : rqRound (intToRq k) = k := by
  show Int.fdiv (2 * k + (1 : Nat)) (2 * ((1 : Nat) : Int)) = k
  rw [Int.fdiv_eq_ediv _ (by omega)]
  omega

theorem rqLe_int (a b : Int) : rqLe (intToRq a) (intToRq b) = decide (a ≤ b) := by
  show decide (a * ((1 : Nat) : Int) ≤ b * ((1 : Nat) : Int)) = decide (a ≤ b)
  simp

theorem jsMin_fin (a b : Rq) : jsMin (.fin a) (.fin b) = if rqLe a b then .fin a else .fin b :=
  rfl

theorem jsMax_fin (a b : Rq) : jsMax (.fin a) (.fin b) = if rqLe a b then .fin b else .fin a :=
  rfl

theorem clampScore_fin (q : Rq) : clampScore (.fin q) = .fin (intToRq (roundClampZ q)) := by
  show jsMax (.fin (intToRq 0)) (jsMin (.fin (intToRq 10)) (.fin (intToRq (rqRound q))))
      = .fin (intToRq (max 0 (min 10 (rqRound q))))
  generalize rqRound q = r
  rw [jsMin_fin, rqLe_int]
  by_cases h10 : (10 : Int) ≤ r
  · rw [if_pos (by simpa using h10), jsMax_fin, rqLe_int, if_pos (by decide)]
    congr 2
    omega
  · rw [if_neg (by simpa using h10), jsMax_fin, rqLe_int]
    by_cases h0 : (0 : Int) ≤ r
    · rw [if_pos (by simpa using h0)]
      congr 2
      omega
    · rw [if_neg (by simpa using h0)]
      congr 2
      omega

theorem clampScore_shape (n : JsNum) :
    clampScore n = .nan ∨ ∃ k : Int, clampScore n = .fin (intToRq k) ∧ 0 ≤ k ∧ k ≤ 10 := by
  cases n with
  | nan => exact Or.inl (by decide)
  | posInf => exact Or.inr ⟨10, by decide, by omega, by omega⟩
  | negInf => exact Or.inr ⟨0, by decide, by omega, by omega⟩
  | fin q =>
    refine Or.inr ⟨roundClampZ q, clampScore_fin q, ?_, ?_⟩ <;>
      · unfold roundClampZ; omega

theorem deriveLevel_eq_levelFromScore (n : JsNum)
    (h : n = .nan ∨ ∃ k : Int, n = .fin (intToRq k)) :
    deriveLevel n = levelFromScore n := by
  rcases h with h | ⟨k, h⟩
  · subst h; decide
  · subst h
    by_cases hk : k = 0
    · subst hk; decide
    · show deriveLevel (.fin (intToRq k)) = levelFromScore (.fin (intToRq k))
      unfold deriveLevel levelFromScore
      have ht : jsTruthy (.num (.fin (intToRq k))) = true := by
        show (!(intToRq k == intToRq 0)) = true
        cases hb : (intToRq k == intToRq 0) with
        | false => rfl
        | true =>
          exfalso
          apply hk
          have h2 : intToRq k = intToRq 0 := beq_iff_eq.mp hb
          simpa [intToRq, Rq.mk.injEq] using h2
      simp only [ht, if_true]
      rw [show jsRound (.fin (intToRq k)) = .fin (intToRq k) by
        simp [jsRound, rqRound_int]]

theorem normalizeResult_score (cand : Js) :
    (normalizeResult cand).score = clampScore (scoreRaw (headOrSelf cand)) := rfl

theorem normalizeResult_level (cand : Js) :
    (normalizeResult cand).level = deriveLevel (clampScore (scoreRaw (headOrSelf cand))) := rfl

theorem jsGetField_skip (fs1 fs2 : List (String × Js)) (kv : String × Js) (k : String)
    (h : (kv.1 == k) = false) :
    jsGetField (.obj (fs1 ++ kv :: fs2)) k = jsGetField (.obj (fs1 ++ fs2)) k := by
  show ((fs1 ++ kv :: fs2).find? (fun p => p.1 == k)).map (fun p => p.2)
      = ((fs1 ++ fs2).find? (fun p => p.1 == k)).map (fun p => p.2)
  induction fs1 with
  | nil => simp [List.find?, h]
  | cons a t ih =>
    by_cases ha : (a.1 == k) = true
    · simp [List.find?, ha]
    · simp only [List.cons_append, List.find?]
      rw [Bool.not_eq_true] at ha
      rw [ha]
      exact ih

theorem scoreRaw_congr {o1 o2 : Js} (h : jsGetField o1 "score" = jsGetField o2 "score") :
    scoreRaw o1 = scoreRaw o2 := by
  unfold scoreRaw; rw [h]

theorem suggRaw_congr {o1 o2 : Js} (h : jsGetField o1 "suggestions" = jsGetField o2 "suggestions") :
    suggRaw o1 = suggRaw o2 := by
  unfold suggRaw; rw [h]

theorem reasonsOf_congr {o1 o2 : Js} (h : jsGetField o1 "reasons" = jsGetField o2 "reasons") :
    reasonsOf o1 = reasonsOf o2 := by
  unfold reasonsOf; rw [h]

theorem normalizeResult_obj_congr (A B : List (String × Js))
    (hs : jsGetField (.obj A) "score" = jsGetField (.obj B) "score")
    (hg : jsGetField (.obj A) "suggestions" = jsGetField (.obj B) "suggestions")
    (hr : jsGetField (.obj A) "reasons" = jsGetField (.obj B) "reasons") :
    normalizeResult (.obj A) = normalizeResult (.obj B) := by
  unfold normalizeResult
  show (let obj := Js.obj A; _) = (let obj := Js.obj B; _)
  simp only [headOrSelf]
  rw [scoreRaw_congr hs, suggRaw_congr hg, reasonsOf_congr hr]

/-- C1: for every candidate the normalizer emits, the level is computed from
the clamped score by the fixed thresholds (score ≥ 10 Native-like, ≥ 9
Near-native, ≥ 7 Advanced, ≥ 5 Intermediate, otherwise Beginner), so score
and level are always mutually consistent under this mapping; and any level
field supplied by the model in the candidate object is ignored (removing it
from any position leaves the output unchanged). -/
theorem c1_level_consistency (cand : Js) (fs1 fs2 : List (String × Js)) (v : Js) :
    (normalizeResult cand).level = levelFromScore ((normalizeResult cand).score) ∧
    normalizeResult (.obj (fs1 ++ ("level", v) :: fs2)) = normalizeResult (.obj (fs1 ++ fs2)) := by
  constructor
  · rw [normalizeResult_level, normalizeResult_score]
    apply deriveLevel_eq_levelFromScore
    rcases clampScore_shape (scoreRaw (headOrSelf cand)) with h | ⟨k, hk, _, _⟩
    · exact Or.inl h
    · exact Or.inr ⟨k, hk⟩
  · exact normalizeResult_obj_congr (fs1 ++ ("level", v) :: fs2) (fs1 ++ fs2)
      (jsGetField_skip fs1 fs2 ("level", v) "score" (show ("level" == "score") = false by decide))
      (jsGetField_skip fs1 fs2 ("level", v) "suggestions" (show ("level" == "suggestions") = false by decide))
      (jsGetField_skip fs1 fs2 ("level", v) "reasons" (show ("level" == "reasons") = false by decide))

/-- C2 counterexample: the claim says a non-numeric score field defaults to 0,
but for the candidate `{"score": "n/a"}` the code computes
`Math.max(0, Math.min(10, Math.round(Number("n/a"))))`, which is NaN, not 0. -/
theorem c2_counterexample :
    (normalizeResult (.obj [("score", .str "n/a")])).score = .nan ∧
    (normalizeResult (.obj [("score", .str "n/a")])).score ≠ .fin (intToRq 0) := by
  constructor
  · rfl
  · decide

theorem clampScore_eq_spec (n : JsNum) :
    clampScore n = (match n with
      | .nan => .nan
      | .posInf => .fin (intToRq 10)
      | .negInf => .fin (intToRq 0)
      | .fin q => .fin (intToRq (roundClampZ q))) := by
  cases n with
  | fin q => exact clampScore_fin q
  | nan => decide
  | posInf => decide
  | negInf => decide

/-- C2 as amended: the normalizer coerces the score field with JavaScript
`Number` semantics, defaulting to 0 only when the field is missing,
`undefined` or `null`; a value that coerces to NaN (such as a non-numeric
string) propagates as NaN through rounding and clamping, infinities clamp to
the nearest bound, and finite values are rounded to the nearest integer
(halves up) and clamped to `[0, 10]`.  In particular a candidate score of
`-3` normalizes to `0` with level Beginner, and `14.6` rounds to `15` and
then clamps to `10` with level Native-like. -/
theorem c2_score_normalization (cand : Js) :
    (normalizeResult cand).score = scoreNormSpec cand ∧
    (normalizeResult (.obj [("score", .num (.fin (intToRq (-3))))])).score = .fin (intToRq 0) ∧
    (normalizeResult (.obj [("score", .num (.fin (intToRq (-3))))])).level = "Beginner" ∧
    jsRound (.fin (rqMk 146 10)) = .fin (intToRq 15) ∧
    (normalizeResult (.obj [("score", .num (.fin (rqMk 146 10)))])).score = .fin (intToRq 10) ∧
    (normalizeResult (.obj [("score", .num (.fin (rqMk 146 10)))])).level = "Native-like" := by
  refine ⟨?_, by decide, by decide, by decide, by decide, by decide⟩
  rw [normalizeResult_score]
  simp only [scoreNormSpec, scoreRaw]
  generalize jsGetField (headOrSelf cand) "score" = g
  cases g with
  | none => decide
  | some v =>
    cases v with
    | undef => decide
    | null => decide
    | bool b => exact clampScore_eq_spec (jsToNumber (.bool b))
    | num m => exact clampScore_eq_spec (jsToNumber (.num m))
    | str s => exact clampScore_eq_spec (jsToNumber (.str s))
    | arr xs => exact clampScore_eq_spec (jsToNumber (.arr xs))
    | obj fs => exact clampScore_eq_spec (jsToNumber (.obj fs))

theorem levelFromScore_mem (n : JsNum) : levelFromScore n ∈ levelNames := by
  unfold levelFromScore
  split_ifs <;> simp [levelNames]

theorem deriveLevel_mem (n : JsNum) : deriveLevel n ∈ levelNames :=
  levelFromScore_mem (jsRound (if jsTruthy (.num n) then n else .fin (intToRq 0)))

theorem reasonsOf_ne_empty (obj : Js) : reasonsOf obj ≠ "" := by
  unfold reasonsOf
  cases jsGetField obj "reasons" with
  | none => decide
  | some v =>
    dsimp only
    cases htr : jsTruthy v with
    | false =>
      rw [if_neg (by simp [htr])]
      decide
    | true =>
      rw [if_pos (by simp [htr])]
      cases he : (jsTrim (jsToString v) == "") with
      | true => rw [if_pos (by simp [he])]; decide
      | false =>
        rw [if_neg (by simp [he])]
        intro hc
        rw [hc] at he
        simp at he

theorem dedupLoop_nil (seen acc : List String) : dedupLoop seen acc [] = acc := rfl

theorem dedupLoop_cons (seen acc : List String) (s : String) (rest : List String) :
    dedupLoop seen acc (s :: rest) =
      if (normKey s).length < 6 then dedupLoop seen acc rest
      else if isGeneric s then dedupLoop seen acc rest
      else if seen.contains (normKey s) then
        (if 6 ≤ acc.length then acc else dedupLoop seen acc rest)
      else
        (if 6 ≤ (acc ++ [s]).length then acc ++ [s]
         else dedupLoop (normKey s :: seen) (acc ++ [s]) rest) := by
  conv_lhs => unfold dedupLoop
  by_cases h6 : (normKey s).length < 6
  · simp [h6]
  · by_cases hg : isGeneric s
    · simp [h6, hg]
    · by_cases hc : seen.contains (normKey s) = true
      · have hm : normKey s ∈ seen := by simpa using hc
        simp [h6, hg, hm]
      · have hm : normKey s ∉ seen := by simpa using hc
        simp [h6, hg, hm]

theorem dedupLoop_length (l : List String) :
    ∀ seen acc : List String, acc.length < 6 → (dedupLoop seen acc l).length ≤ 6 := by
  induction l with
  | nil =>
    intro seen acc h
    rw [dedupLoop_nil]
    omega
  | cons x rest ih =>
    intro seen acc h
    rw [dedupLoop_cons]
    by_cases h1 : (normKey x).length < 6
    · rw [if_pos h1]; exact ih seen acc h
    · rw [if_neg h1]
      by_cases h2 : isGeneric x = true
      · rw [if_pos h2]; exact ih seen acc h
      · rw [if_neg h2]
        by_cases h3 : seen.contains (normKey x) = true
        · rw [if_pos h3]
          by_cases h4 : 6 ≤ acc.length
          · rw [if_pos h4]; omega
          · rw [if_neg h4]; exact ih seen acc h
        · rw [if_neg h3]
          by_cases h5 : 6 ≤ (acc ++ [x]).length
          · rw [if_pos h5]
            simp only [List.length_append, List.length_singleton]
            omega
          · rw [if_neg h5]
            exact ih (normKey x :: seen) (acc ++ [x])
              (by simp only [List.length_append, List.length_singleton] at h5 ⊢; omega)

theorem dedupLoop_mem (l : List String) :
    ∀ seen acc s, s ∈ dedupLoop seen acc l → s ∈ acc ∨ s ∈ l := by
  induction l with
  | nil =>
    intro seen acc s h
    rw [dedupLoop_nil] at h
    exact Or.inl h
  | cons x rest ih =>
    intro seen acc s h
    have step : s ∈ acc ∨ s ∈ rest → s ∈ acc ∨ s ∈ x :: rest := by
      rintro (ha | hr)
      · exact Or.inl ha
      · exact Or.inr (List.mem_cons_of_mem x hr)
    have snoc : s ∈ acc ++ [x] → s ∈ acc ∨ s ∈ x :: rest := by
      intro hs
      rcases List.mem_append.mp hs with ha | hx
      · exact Or.inl ha
      · simp at hx
        exact Or.inr (by simp [hx])
    rw [dedupLoop_cons] at h
    by_cases h1 : (normKey x).length < 6
    · rw [if_pos h1] at h; exact step (ih seen acc s h)
    · rw [if_neg h1] at h
      by_cases h2 : isGeneric x = true
      · rw [if_pos h2] at h; exact step (ih seen acc s h)
      · rw [if_neg h2] at h
        by_cases h3 : seen.contains (normKey x) = true
        · rw [if_pos h3] at h
          by_cases h4 : 6 ≤ acc.length
          · rw [if_pos h4] at h; exact Or.inl h
          · rw [if_neg h4] at h; exact step (ih seen acc s h)
        · rw [if_neg h3] at h
          by_cases h5 : 6 ≤ (acc ++ [x]).length
          · rw [if_pos h5] at h; exact snoc h
          · rw [if_neg h5] at h
            rcases ih _ _ s h with hl | hr
            · exact snoc hl
            · exact Or.inr (List.mem_cons_of_mem x hr)

theorem dedupLoop_props (l : List String) :
    ∀ seen acc, (∀ s ∈ acc, 6 ≤ (normKey s).length ∧ isGeneric s = false) →
      ∀ s ∈ dedupLoop seen acc l, 6 ≤ (normKey s).length ∧ isGeneric s = false := by
  induction l with
  | nil =>
    intro seen acc hacc s hs
    rw [dedupLoop_nil] at hs
    exact hacc s hs
  | cons x rest ih =>
    intro seen acc hacc s hs
    rw [dedupLoop_cons] at hs
    by_cases h1 : (normKey x).length < 6
    · rw [if_pos h1] at hs; exact ih seen acc hacc s hs
    · rw [if_neg h1] at hs
      by_cases h2 : isGeneric x = true
      · rw [if_pos h2] at hs; exact ih seen acc hacc s hs
      · rw [if_neg h2] at hs
        have hx : 6 ≤ (normKey x).length ∧ isGeneric x = false :=
          ⟨by omega, by rw [Bool.eq_false_iff]; exact h2⟩
        have hsnoc : ∀ t ∈ acc ++ [x], 6 ≤ (normKey t).length ∧ isGeneric t = false := by
          intro t ht
          rcases List.mem_append.mp ht with hl | hr
          · exact hacc t hl
          · simp at hr
            subst hr
            exact hx
        by_cases h3 : seen.contains (normKey x) = true
        · rw [if_pos h3] at hs
          by_cases h4 : 6 ≤ acc.length
          · rw [if_pos h4] at hs; exact hacc s hs
          · rw [if_neg h4] at hs; exact ih seen acc hacc s hs
        · rw [if_neg h3] at hs
          by_cases h5 : 6 ≤ (acc ++ [x]).length
          · rw [if_pos h5] at hs; exact hsnoc s hs
          · rw [if_neg h5] at hs; exact ih _ _ hsnoc s hs

theorem dedupLoop_keys_nodup (l : List String) :
    ∀ seen acc, (∀ s ∈ acc, normKey s ∈ seen) → (acc.map normKey).Nodup →
      ((dedupLoop seen acc l).map normKey).Nodup := by
  induction l with
  | nil =>
    intro seen acc _ hnd
    rw [dedupLoop_nil]
    exact hnd
  | cons x rest ih =>
    intro seen acc hsub hnd
    rw [dedupLoop_cons]
    by_cases h1 : (normKey x).length < 6
    · rw [if_pos h1]; exact ih seen acc hsub hnd
    · rw [if_neg h1]
      by_cases h2 : isGeneric x = true
      · rw [if_pos h2]; exact ih seen acc hsub hnd
      · rw [if_neg h2]
        by_cases h3 : seen.contains (normKey x) = true
        · rw [if_pos h3]
          by_cases h4 : 6 ≤ acc.length
          · rw [if_pos h4]; exact hnd
          · rw [if_neg h4]; exact ih seen acc hsub hnd
        · rw [if_neg h3]
          have hnotin : normKey x ∉ seen := by simpa using h3
          have hsnocnd : ((acc ++ [x]).map normKey).Nodup := by
            rw [List.map_append]
            simp only [List.map_cons, List.map_nil]
            rw [List.nodup_append]
            refine ⟨hnd, List.nodup_singleton _, ?_⟩
            intro a ha hb
            simp at hb
            rcases List.mem_map.mp ha with ⟨t, ht, hts⟩
            rw [hb] at hts
            exact hnotin (hts ▸ hsub t ht)
          by_cases h5 : 6 ≤ (acc ++ [x]).length
          · rw [if_pos h5]; exact hsnocnd
          · rw [if_neg h5]
            refine ih _ _ ?_ hsnocnd
            intro t ht
            rcases List.mem_append.mp ht with hl | hr
            · exact List.mem_cons_of_mem _ (hsub t hl)
            · simp at hr
              subst hr
              exact List.mem_cons_self _ _

/-- C3 counterexample: the claim says the normalized score is always an
integer in `[0, 10]`, but for the decoded JSON value `{"score": {}}` the
code computes `Number({})`, which is NaN, and NaN propagates through
`Math.round`/`Math.min`/`Math.max`, so the output score is NaN. -/
theorem c3_counterexample :
    scoreIsContractInt ((normalizeResult (.obj [("score", .obj [])])).score) = false ∧
    (normalizeResult (.obj [("score", .obj [])])).score = .nan := ⟨rfl, rfl⟩

/-- C3 as amended: the normalizer is total by construction and, for every
successfully decoded JSON value, returns an `AssessResult` whose score is an
integer in `[0, 10]` or NaN (NaN exactly when a present, non-null score field
coerces to NaN), whose level is one of the five fixed names, whose reasons is
non-empty text (the fixed placeholder when the candidate's reasons is absent
or blank after trimming), and whose suggestions are 1 to 6 distinct entries
(the fixed fallback list when filtering leaves none). -/
theorem c3_normalizer_contract (v : Js) :
    ((normalizeResult v).score = .nan ∨
      ∃ k : Int, (normalizeResult v).score = .fin (intToRq k) ∧ 0 ≤ k ∧ k ≤ 10) ∧
    (normalizeResult v).level ∈ levelNames ∧
    (normalizeResult v).reasons ≠ "" ∧
    1 ≤ (normalizeResult v).suggestions.length ∧
    (normalizeResult v).suggestions.length ≤ 6 ∧
    (normalizeResult v).suggestions.Nodup ∧
    (jsGetField (headOrSelf v) "reasons" = none →
      (normalizeResult v).reasons = "Results normalized.") ∧
    (dedupSugg (cleanSugg (suggRaw (headOrSelf v))) = [] →
      (normalizeResult v).suggestions = fallbackSuggestions) := by
  have hsugg : (normalizeResult v).suggestions =
      (if (dedupSugg (cleanSugg (suggRaw (headOrSelf v)))).isEmpty then fallbackSuggestions
       else dedupSugg (cleanSugg (suggRaw (headOrSelf v)))) := rfl
  refine ⟨?_, ?_, ?_, ?_, ?_, ?_, ?_, ?_⟩
  · rw [normalizeResult_score]
    exact clampScore_shape _
  · rw [normalizeResult_level]
    exact deriveLevel_mem _
  · exact reasonsOf_ne_empty (headOrSelf v)
  · rw [hsugg]
    cases he : (dedupSugg (cleanSugg (suggRaw (headOrSelf v)))).isEmpty with
    | true => simp only [he, if_true]; decide
    | false =>
      simp only [he, Bool.false_eq_true, if_false]
      have hne : dedupSugg (cleanSugg (suggRaw (headOrSelf v))) ≠ [] := by
        intro hnil
        rw [hnil] at he
        simp at he
      have := List.length_pos.mpr hne
      omega
  · rw [hsugg]
    cases he : (dedupSugg (cleanSugg (suggRaw (headOrSelf v)))).isEmpty with
    | true => simp only [he, if_true]; decide
    | false =>
      simp only [he, Bool.false_eq_true, if_false]
      exact dedupLoop_length _ [] [] (by simp)
  · rw [hsugg]
    cases he : (dedupSugg (cleanSugg (suggRaw (headOrSelf v)))).isEmpty with
    | true => simp only [he, if_true]; decide
    | false =>
      simp only [he, Bool.false_eq_true, if_false]
      exact List.Nodup.of_map normKey
        (dedupLoop_keys_nodup _ [] [] (by simp) (by simp))
  · intro h
    show reasonsOf (headOrSelf v) = _
    unfold reasonsOf
    rw [h]
  · intro h
    rw [hsugg, h]
    simp

/-- Witness for the conditional clauses of the amended C3 at the concrete
candidate `{}` (no fields at all). -/
theorem c3_contract_witness :
    jsGetField (headOrSelf (.obj [])) "reasons" = none ∧
    dedupSugg (cleanSugg (suggRaw (headOrSelf (.obj [])))) = [] ∧
    (normalizeResult (.obj [])).reasons = "Results normalized." ∧
    (normalizeResult (.obj [])).suggestions = fallbackSuggestions :=
  ⟨rfl, rfl, (c3_normalizer_contract (.obj [])).2.2.2.2.2.2.1 rfl,
   (c3_normalizer_contract (.obj [])).2.2.2.2.2.2.2 rfl⟩

theorem dropWhile_idem (p : Char → Bool) (l : List Char) :
    (l.dropWhile p).dropWhile p = l.dropWhile p := by
  induction l with
  | nil => rfl
  | cons c t ih =>
    by_cases h : p c
    · simp [List.dropWhile_cons, h, ih]
    · simp [List.dropWhile_cons, h]

theorem head?_dropWhile (p : Char → Bool) (l : List Char) (c : Char)
    (h : (l.dropWhile p).head? = some c) : p c = false := by
  induction l with
  | nil => simp [List.dropWhile] at h
  | cons a t ih =>
    by_cases ha : p a
    · rw [List.dropWhile_cons, if_pos ha] at h
      exact ih h
    · rw [List.dropWhile_cons, if_neg ha] at h
      simp at h
      subst h
      simpa using ha

theorem dropWhile_suffix_ex (p : Char → Bool) (l : List Char) :
    ∃ t, t ++ l.dropWhile p = l := by
  induction l with
  | nil => exact ⟨[], rfl⟩
  | cons c t ih =>
    by_cases h : p c
    · obtain ⟨w, hw⟩ := ih
      exact ⟨c :: w, by simp [List.dropWhile_cons, h, hw]⟩
    · exact ⟨[], by simp [List.dropWhile_cons, h]⟩

theorem trimRight_prefix_ex (l : List Char) : ∃ t, trimRightL l ++ t = l := by
  obtain ⟨w, hw⟩ := dropWhile_suffix_ex jsIsWhite l.reverse
  refine ⟨w.reverse, ?_⟩
  have := congrArg List.reverse hw
  simpa [trimRightL] using this

theorem trimLeft_eq_self (l : List Char)
    (h : ∀ c, l.head? = some c → jsIsWhite c = false) : trimLeftL l = l := by
  cases l with
  | nil => rfl
  | cons c t =>
    show List.dropWhile jsIsWhite (c :: t) = c :: t
    rw [List.dropWhile_cons, if_neg (by simp [h c rfl])]

theorem trimLeft_trimRight (l : List Char) :
    trimLeftL (trimRightL (trimLeftL l)) = trimRightL (trimLeftL l) := by
  apply trimLeft_eq_self
  intro c hc
  obtain ⟨t, ht⟩ := trimRight_prefix_ex (trimLeftL l)
  have hne : trimRightL (trimLeftL l) ≠ [] := by
    intro hnil
    rw [hnil] at hc
    simp at hc
  have hhead : (trimLeftL l).head? = some c := by
    rw [← ht]
    cases hcase : trimRightL (trimLeftL l) with
    | nil => exact absurd hcase hne
    | cons a u =>
      rw [hcase] at hc
      simp at hc
      simp [hc]
  exact head?_dropWhile jsIsWhite l c hhead

theorem trimRight_idem (l : List Char) : trimRightL (trimRightL l) = trimRightL l := by
  unfold trimRightL
  rw [List.reverse_reverse, dropWhile_idem]

theorem jsTrim_idem (s : String) : jsTrim (jsTrim s) = jsTrim s := by
  show (⟨trimRightL (trimLeftL (trimRightL (trimLeftL s.data)))⟩ : String)
      = ⟨trimRightL (trimLeftL s.data)⟩
  rw [trimLeft_trimRight, trimRight_idem]

theorem str_ne_empty_iff (s : String) : s ≠ "" ↔ 0 < s.length := by
  cases s with
  | mk data =>
    show (⟨data⟩ : String) ≠ ⟨[]⟩ ↔ 0 < data.length
    constructor
    · intro h
      cases data with
      | nil => exact absurd rfl h
      | cons c t => simp
    · intro h hcon
      have : data = [] := by
        have := congrArg String.data hcon
        simpa using this
      rw [this] at h
      simp at h

theorem assessResult_ext (a b : AssessResult) (h1 : a.score = b.score) (h2 : a.level = b.level)
    (h3 : a.reasons = b.reasons) (h4 : a.suggestions = b.suggestions) : a = b := by
  cases a
  cases b
  rw [AssessResult.mk.injEq]
  exact ⟨h1, h2, h3, h4⟩

theorem cleanSugg_elem (xs : List Js) (s : String) (h : s ∈ cleanSugg xs) :
    jsTrim s = s ∧ s ≠ "" := by
  unfold cleanSugg at h
  rcases List.mem_filter.mp h with ⟨hmem, hpred⟩
  have hne : s ≠ "" := (str_ne_empty_iff s).mpr (by simpa using hpred)
  refine ⟨?_, hne⟩
  rcases List.mem_map.mp hmem with ⟨v, _, hv⟩
  cases v with
  | str t => rw [← hv]; exact jsTrim_idem t
  | undef => exact absurd hv.symm hne
  | null => exact absurd hv.symm hne
  | bool b => exact absurd hv.symm hne
  | num n => exact absurd hv.symm hne
  | arr l => exact absurd hv.symm hne
  | obj fs => exact absurd hv.symm hne

theorem contains_eq_false_of_not_mem (l : List String) (s : String) (h : s ∉ l) :
    l.contains s = false := by
  cases hc : l.contains s with
  | false => rfl
  | true =>
    exfalso
    apply h
    rcases List.contains_iff_exists_mem_beq.mp hc with ⟨a, ha, hab⟩
    rw [show s = a from beq_iff_eq.mp hab]
    exact ha

theorem dedup_fixed (l : List String) :
    ∀ seen acc : List String,
      (∀ s ∈ l, 6 ≤ (normKey s).length ∧ isGeneric s = false) →
      (l.map normKey).Nodup →
      (∀ s ∈ l, normKey s ∉ seen) →
      acc.length + l.length ≤ 6 →
      dedupLoop seen acc l = acc ++ l := by
  induction l with
  | nil =>
    intro seen acc _ _ _ _
    rw [dedupLoop_nil, List.append_nil]
  | cons x rest ih =>
    intro seen acc hprops hnd hseen hlen
    rw [dedupLoop_cons]
    have hx := hprops x (List.mem_cons_self x rest)
    rw [if_neg (by omega)]
    rw [if_neg (by rw [hx.2]; simp)]
    rw [if_neg (by
      rw [contains_eq_false_of_not_mem seen (normKey x) (hseen x (List.mem_cons_self x rest))]
      simp)]
    by_cases h5 : 6 ≤ (acc ++ [x]).length
    · rw [if_pos h5]
      have hrest : rest = [] := by
        cases rest with
        | nil => rfl
        | cons y ys =>
          exfalso
          have e1 : (acc ++ [x]).length = acc.length + 1 := by simp
          have e2 : (x :: y :: ys).length = ys.length + 2 := by simp
          rw [e1] at h5
          rw [e2] at hlen
          omega
      rw [hrest]
    · rw [if_neg h5]
      have hnd2 : (normKey x :: rest.map normKey).Nodup := by
        rw [List.map_cons] at hnd
        exact hnd
      rw [ih (normKey x :: seen) (acc ++ [x])
        (fun s hs => hprops s (List.mem_cons_of_mem x hs))
        (List.nodup_cons.mp hnd2).2
        (fun s hs => by
          intro hmem
          rcases List.mem_cons.mp hmem with heq | hin
          · exact (List.nodup_cons.mp hnd2).1 (heq ▸ List.mem_map.mpr ⟨s, hs, rfl⟩)
          · exact hseen s (List.mem_cons_of_mem x hs) hin)
        (by
          have e1 : (acc ++ [x]).length = acc.length + 1 := by simp
          have e2 : (x :: rest).length = rest.length + 1 := by simp
          rw [e1]
          rw [e2] at hlen
          omega)]
      simp

theorem clampScore_fixed (n : JsNum)
    (h : n = .nan ∨ ∃ k : Int, n = .fin (intToRq k) ∧ 0 ≤ k ∧ k ≤ 10) :
    clampScore n = n := by
  rcases h with h | ⟨k, hk, h0, h10⟩
  · subst h; rfl
  · subst hk
    rw [clampScore_fin]
    unfold roundClampZ
    rw [rqRound_int]
    congr 2
    omega

theorem reasonsOf_trim_fixed (obj : Js) : jsTrim (reasonsOf obj) = reasonsOf obj := by
  unfold reasonsOf
  cases jsGetField obj "reasons" with
  | none => decide
  | some v =>
    dsimp only
    cases htr : jsTruthy v with
    | false =>
      rw [if_neg (by simp [htr])]
      decide
    | true =>
      rw [if_pos (by simp [htr])]
      cases he : (jsTrim (jsToString v) == "") with
      | true => rw [if_pos (by simp [he])]; decide
      | false =>
        rw [if_neg (by simp [he])]
        exact jsTrim_idem (jsToString v)

theorem cleanSugg_map_str (l : List String) (h : ∀ s ∈ l, jsTrim s = s ∧ s ≠ "") :
    cleanSugg (l.map .str) = l := by
  unfold cleanSugg
  rw [List.map_map]
  have hmap : l.map ((fun v => match v with | Js.str s => jsTrim s | _ => "") ∘ Js.str) = l := by
    have : ∀ s ∈ l, ((fun v => match v with | Js.str s => jsTrim s | _ => "") ∘ Js.str) s = s := by
      intro s hs
      exact (h s hs).1
    rw [List.map_congr_left this]
    simp
  rw [hmap]
  apply List.filter_eq_self.mpr
  intro s hs
  simpa using (str_ne_empty_iff s).mp (h s hs).2

theorem dedupSugg_fixed (l : List String)
    (hprops : ∀ s ∈ l, 6 ≤ (normKey s).length ∧ isGeneric s = false)
    (hnd : (l.map normKey).Nodup) (hlen : l.length ≤ 6) :
    dedupSugg l = l := by
  unfold dedupSugg
  rw [dedup_fixed l [] [] hprops hnd (by intro s _; simp) (by simpa using hlen)]
  simp

theorem normSugg_cases (cand : Js) :
    (normalizeResult cand).suggestions = fallbackSuggestions ∨
    (normalizeResult cand).suggestions = dedupSugg (cleanSugg (suggRaw (headOrSelf cand))) := by
  have hsugg : (normalizeResult cand).suggestions =
      (if (dedupSugg (cleanSugg (suggRaw (headOrSelf cand)))).isEmpty then fallbackSuggestions
       else dedupSugg (cleanSugg (suggRaw (headOrSelf cand)))) := rfl
  rw [hsugg]
  by_cases he : (dedupSugg (cleanSugg (suggRaw (headOrSelf cand)))).isEmpty
  · rw [if_pos he]; exact Or.inl rfl
  · rw [if_neg he]; exact Or.inr rfl

theorem normSugg_good (cand : Js) :
    (∀ s ∈ (normalizeResult cand).suggestions,
      (jsTrim s = s ∧ s ≠ "") ∧ (6 ≤ (normKey s).length ∧ isGeneric s = false)) ∧
    ((normalizeResult cand).suggestions.map normKey).Nodup ∧
    (normalizeResult cand).suggestions.length ≤ 6 := by
  rcases normSugg_cases cand with h | h <;> rw [h]
  · exact ⟨by decide, by decide, by decide⟩
  · refine ⟨?_, ?_, ?_⟩
    · intro s hs
      constructor
      · rcases dedupLoop_mem _ [] [] s hs with hacc | hcl
        · simp at hacc
        · exact cleanSugg_elem _ s hcl
      · exact dedupLoop_props _ [] [] (by simp) s hs
    · exact dedupLoop_keys_nodup _ [] [] (by simp) (by simp)
    · exact dedupLoop_length _ [] [] (by simp)

theorem scoreRaw_toJs (r : AssessResult) : scoreRaw (resultToJs r) = r.score := rfl

theorem suggRaw_toJs (r : AssessResult) : suggRaw (resultToJs r) = r.suggestions.map .str := rfl

theorem reasons_getField_toJs (r : AssessResult) :
    jsGetField (resultToJs r) "reasons" = some (.str r.reasons) := rfl

theorem reasonsOf_toJs (r : AssessResult) (hne : r.reasons ≠ "")
    (hfix : jsTrim r.reasons = r.reasons) : reasonsOf (resultToJs r) = r.reasons := by
  unfold reasonsOf
  rw [reasons_getField_toJs]
  dsimp only
  rw [if_pos (by simp [jsTruthy, hne])]
  have ht : jsTrim (jsToString (.str r.reasons)) = r.reasons := by
    rw [show jsToString (.str r.reasons) = r.reasons from rfl, hfix]
  rw [ht, if_neg (by simp [hne])]

theorem normSugg_ne_nil (cand : Js) : (normalizeResult cand).suggestions ≠ [] := by
  have hsugg : (normalizeResult cand).suggestions =
      (if (dedupSugg (cleanSugg (suggRaw (headOrSelf cand)))).isEmpty then fallbackSuggestions
       else dedupSugg (cleanSugg (suggRaw (headOrSelf cand)))) := rfl
  rw [hsugg]
  by_cases he : (dedupSugg (cleanSugg (suggRaw (headOrSelf cand)))).isEmpty
  · rw [if_pos he]; decide
  · rw [if_neg he]
    intro h
    exact he (by rw [h]; rfl)

/-- C4: the normalizer is idempotent — feeding its own output back in as a
fresh candidate returns the same object; moreover every entry of the fixed
fallback suggestion list itself survives the trimming, length, denylist and
de-duplication filters unchanged. -/
theorem c4_normalizer_idempotent (cand : Js) :
    normalizeResult (resultToJs (normalizeResult cand)) = normalizeResult cand ∧
    cleanSugg (fallbackSuggestions.map .str) = fallbackSuggestions ∧
    dedupSugg fallbackSuggestions = fallbackSuggestions := by
  refine ⟨?_, by decide, by decide⟩
  have hshape : (normalizeResult cand).score = .nan ∨
      ∃ k : Int, (normalizeResult cand).score = .fin (intToRq k) ∧ 0 ≤ k ∧ k ≤ 10 := by
    rw [normalizeResult_score]
    exact clampScore_shape _
  have hgood := normSugg_good cand
  have hne : (normalizeResult cand).reasons ≠ "" := reasonsOf_ne_empty (headOrSelf cand)
  have hfix : jsTrim (normalizeResult cand).reasons = (normalizeResult cand).reasons :=
    reasonsOf_trim_fixed (headOrSelf cand)
  have hhead : headOrSelf (resultToJs (normalizeResult cand)) = resultToJs (normalizeResult cand) :=
    rfl
  apply assessResult_ext
  · rw [normalizeResult_score, hhead, scoreRaw_toJs]
    exact clampScore_fixed _ hshape
  · rw [normalizeResult_level, hhead, scoreRaw_toJs, clampScore_fixed _ hshape]
    rfl
  · show reasonsOf (headOrSelf (resultToJs (normalizeResult cand))) = (normalizeResult cand).reasons
    rw [hhead]
    exact reasonsOf_toJs _ hne hfix
  · show (if (dedupSugg (cleanSugg (suggRaw (headOrSelf (resultToJs (normalizeResult cand)))))).isEmpty
        then fallbackSuggestions
        else dedupSugg (cleanSugg (suggRaw (headOrSelf (resultToJs (normalizeResult cand)))))) =
      (normalizeResult cand).suggestions
    rw [hhead, suggRaw_toJs,
      cleanSugg_map_str _ (fun s hs => (hgood.1 s hs).1),
      dedupSugg_fixed _ (fun s hs => (hgood.1 s hs).2) hgood.2.1 hgood.2.2]
    rw [if_neg (fun hc => normSugg_ne_nil cand (List.isEmpty_iff.mp hc))]

theorem robustGo_eq_scan (oracle : Oracle) (sys usr : String) (models : List String) :
    ∀ last, robustAskGo oracle sys usr models last =
      scanAttempts oracle sys usr (attemptSpecList models) last := by
  induction models with
  | nil => intro last; rfl
  | cons m ms ih =>
    intro last
    show robustAskGo oracle sys usr (m :: ms) last
        = scanAttempts oracle sys usr ((m, true, 700) :: (m, false, 550) :: attemptSpecList ms) last
    conv_lhs => unfold robustAskGo
    conv_rhs => unfold scanAttempts
    simp only [callOnce]
    cases h1 : oracle m true 700 sys usr with
    | ok raw => rfl
    | error e1 =>
      conv_rhs => unfold scanAttempts
      cases h2 : oracle m false 550 sys usr with
      | ok raw => rfl
      | error e2 =>
        dsimp only
        rw [ih (some e2)]

theorem scan_isOk (oracle : Oracle) (sys usr : String) (attempts : List (String × Bool × Nat)) :
    ∀ last, exceptIsOk (scanAttempts oracle sys usr attempts last).1 =
      attempts.any (attemptOk oracle sys usr) := by
  induction attempts with
  | nil => intro last; rfl
  | cons a rest ih =>
    intro last
    obtain ⟨m, j, t⟩ := a
    show exceptIsOk (scanAttempts oracle sys usr ((m, j, t) :: rest) last).1 = _
    conv_lhs => unfold scanAttempts
    rw [List.any_cons]
    cases h1 : oracle m j t sys usr with
    | ok raw =>
      have : attemptOk oracle sys usr (m, j, t) = true := by
        unfold attemptOk
        rw [h1]
      rw [this]
      rfl
    | error e =>
      have : attemptOk oracle sys usr (m, j, t) = false := by
        unfold attemptOk
        rw [h1]
      rw [this]
      simpa using ih (some e)

/-- C6: `robustAsk` tries the attempts strictly in the order primary model
with JSON response format, primary relaxed, then each configured fallback
model in list order, constrained then relaxed; it returns the raw text of
the first attempt whose completion call succeeds (recording exactly the
calls made in order), and it throws — carrying the last recorded attempt
error — exactly when every attempt in the list has failed. -/
theorem c6_fallback_order (oracle : Oracle) (p : String) (fbs : List String) (userText : String) :
    robustAsk oracle p fbs userText =
      scanAttempts oracle SYSTEM_PROMPT (STRICT_JSON_INSTR ++ "\n\nUser responses:\n" ++ userText)
        (attemptSpecList (p :: fbs)) none ∧
    exceptIsOk (robustAsk oracle p fbs userText).1 =
      (attemptSpecList (p :: fbs)).any
        (attemptOk oracle SYSTEM_PROMPT (STRICT_JSON_INSTR ++ "\n\nUser responses:\n" ++ userText)) := by
  constructor
  · exact robustGo_eq_scan oracle _ _ (p :: fbs) none
  · rw [show robustAsk oracle p fbs userText
        = robustAskGo oracle SYSTEM_PROMPT (STRICT_JSON_INSTR ++ "\n\nUser responses:\n" ++ userText)
            (p :: fbs) none from rfl,
      robustGo_eq_scan oracle _ _ (p :: fbs) none]
    exact scan_isOk oracle _ _ (attemptSpecList (p :: fbs)) none

/-- C8 counterexample: the claim requires every request whose answers are not
all non-empty after trimming to be rejected with 400 before any upstream
call, but the schema only checks raw length ≥ 1: for the request whose first
answer is the single space " " (blank after trimming) the handler makes an
upstream completion call and responds 200. -/
theorem c8_counterexample :
    jsTrim " " = "" ∧
    jsGetField reqBlankAnswer.body "answers" =
      some (.arr [.str " ", .str "a", .str "b", .str "c"]) ∧
    (assessHandler cfgEx oracleAlwaysOk reqBlankAnswer).1.1 = 200 ∧
    (assessHandler cfgEx oracleAlwaysOk reqBlankAnswer).2 ≠ [] := by
  refine ⟨rfl, rfl, rfl, ?_⟩
  have htr : (assessHandler cfgEx oracleAlwaysOk reqBlankAnswer).2.length = 1 := rfl
  intro h
  rw [h] at htr
  simp at htr

/-- C8 as amended: for every incoming request whose body does not carry
exactly 4 answers, each a non-empty string in the raw (untrimmed) sense
checked by the schema, the server responds 400 with the structured problem
body before making any upstream completion call (the call trace is empty),
and such a request is never retried. -/
theorem c8_input_validation (cfg : Config) (oracle : Oracle) (req : AssessReq)
    (h : ¬ bodyValidSpec req.body) :
    assessHandler cfg oracle req = ((400, .badInput), []) := by
  have hp : parseAnswers req.body = none := by
    cases hp : parseAnswers req.body with
    | none => rfl
    | some a =>
      exfalso
      apply h
      obtain ⟨a1, a2, a3, a4⟩ := a
      unfold parseAnswers at hp
      split at hp
      · rename_i b1 b2 b3 b4 heq
        split at hp
        · rename_i hcond
          simp only [Bool.and_eq_true, decide_eq_true_eq] at hcond
          refine ⟨b1, b2, b3, b4, heq, ?_, ?_, ?_, ?_⟩ <;>
            · rw [str_ne_empty_iff]
              omega
        · exact absurd hp (by simp)
      · exact absurd hp (by simp)
  unfold assessHandler
  rw [hp]

/-- Witness: a request whose answers array has only one element is rejected
with 400 and an empty call trace. -/
theorem c8_input_validation_witness :
    assessHandler cfgEx oracleAlwaysOk
      ⟨.obj [("answers", .arr [.str "a"])], none, none, none, none⟩ = ((400, .badInput), []) :=
  c8_input_validation cfgEx oracleAlwaysOk _ (by
    rintro ⟨a1, a2, a3, a4, hf, -⟩
    have hv : jsGetField (Js.obj [("answers", .arr [.str "a"])]) "answers"
        = some (.arr [.str "a"]) := rfl
    rw [hv] at hf
    simp at hf)

theorem handler_after_extract_fail (cfg : Config) (oracle : Oracle) (body : Js)
    (qdbg qmock : Option String) (a1 a2 a3 a4 raw1 m1 : String)
    (hbody : parseAnswers body = some (a1, a2, a3, a4))
    (hmock : qmock ≠ some "1")
    (hr1 : (robustAsk oracle cfg.defaultModel cfg.fallbackModels (buildUserText a1 a2 a3 a4)).1
        = .ok (raw1, m1))
    (hext : extractJson raw1 = none) :
    assessHandler cfg oracle ⟨body, qdbg, none, qmock, none⟩ =
      (match (robustAsk oracle cfg.defaultModel cfg.fallbackModels
          (retryInstr ++ "\n\n" ++ buildUserText a1 a2 a3 a4)).1 with
        | .error e =>
          ((500, .failure e cfg.defaultModel),
            (robustAsk oracle cfg.defaultModel cfg.fallbackModels (buildUserText a1 a2 a3 a4)).2 ++
            (robustAsk oracle cfg.defaultModel cfg.fallbackModels
              (retryInstr ++ "\n\n" ++ buildUserText a1 a2 a3 a4)).2)
        | .ok (raw2, _) =>
          (match extractJson raw2 with
            | some out =>
              ((200, .assessment (normalizeResult out) m1),
                (robustAsk oracle cfg.defaultModel cfg.fallbackModels (buildUserText a1 a2 a3 a4)).2 ++
                (robustAsk oracle cfg.defaultModel cfg.fallbackModels
                  (retryInstr ++ "\n\n" ++ buildUserText a1 a2 a3 a4)).2)
            | none =>
              ((500, .parseFailure cfg.defaultModel),
                (robustAsk oracle cfg.defaultModel cfg.fallbackModels (buildUserText a1 a2 a3 a4)).2 ++
                (robustAsk oracle cfg.defaultModel cfg.fallbackModels
                  (retryInstr ++ "\n\n" ++ buildUserText a1 a2 a3 a4)).2))) := by
  unfold assessHandler
  rw [hbody]
  dsimp only
  rw [if_neg (by simp [hmock])]
  simp only [Option.getD_none]
  rw [hr1]
  dsimp only
  rw [hext]
  dsimp only
  cases hr2 : (robustAsk oracle cfg.defaultModel cfg.fallbackModels
      (retryInstr ++ "\n\n" ++ buildUserText a1 a2 a3 a4)).1 with
  | error e => rfl
  | ok p =>
    obtain ⟨raw2, m2⟩ := p
    dsimp only
    rw [if_neg (by simp)]

/-- C7 counterexample: under the authenticated debug flag the handler
returns status 500 with the two raw texts even though the shortened-prompt
retry succeeded and its text was JSON-extractable — so, as stated, a
malformed-output error can be surfaced although the shortened-prompt path
did not fail. -/
theorem c7_counterexample :
    (assessHandler cfgEx oracleRetryDemo
      ⟨.obj [("answers", .arr [.str "one", .str "two", .str "three", .str "four"])],
        some "1", some "s3cret", none, none⟩).1.1 = 500 ∧
    extractJson "no json here" = none ∧
    (robustAsk oracleRetryDemo "model-a" ["model-b"]
        (retryInstr ++ "\n\n" ++ buildUserText "one" "two" "three" "four")).1
      = .ok ("\x7b\"score\":7,\"reasons\":\"ok\",\"suggestions\":[]\x7d", "model-b") ∧
    (extractJson "\x7b\"score\":7,\"reasons\":\"ok\",\"suggestions\":[]\x7d").isSome = true :=
  ⟨rfl, rfl, rfl, rfl⟩

/-- C7 as amended: outside the authenticated debug mode, when the first
orchestrator round returns text from which no JSON can be extracted, the
pipeline issues a whole further round of attempts whose prompt is the new,
shortened and stricter variant (the bare schema `retryInstr`, without the
rubric text) instead of the full prompt — the recorded calls are exactly the
first round's followed by the shortened-prompt round's; if the shortened
round yields extractable JSON the response is a 200 assessment, and a 500 is
returned only when the shortened-prompt path itself fails (its completion
calls all fail, or its text is again not extractable). -/
theorem c7_malformed_retry (cfg : Config) (oracle : Oracle) (body : Js)
    (qdbg qmock : Option String) (a1 a2 a3 a4 raw1 m1 : String)
    (hbody : parseAnswers body = some (a1, a2, a3, a4))
    (hmock : qmock ≠ some "1")
    (hr1 : (robustAsk oracle cfg.defaultModel cfg.fallbackModels (buildUserText a1 a2 a3 a4)).1
        = .ok (raw1, m1))
    (hext : extractJson raw1 = none) :
    (assessHandler cfg oracle ⟨body, qdbg, none, qmock, none⟩).2 =
      (robustAsk oracle cfg.defaultModel cfg.fallbackModels (buildUserText a1 a2 a3 a4)).2 ++
      (robustAsk oracle cfg.defaultModel cfg.fallbackModels
        (retryInstr ++ "\n\n" ++ buildUserText a1 a2 a3 a4)).2 ∧
    (∀ raw2 m2, (robustAsk oracle cfg.defaultModel cfg.fallbackModels
          (retryInstr ++ "\n\n" ++ buildUserText a1 a2 a3 a4)).1 = .ok (raw2, m2) →
      ∀ out, extractJson raw2 = some out →
        (assessHandler cfg oracle ⟨body, qdbg, none, qmock, none⟩).1
          = (200, .assessment (normalizeResult out) m1)) ∧
    ((assessHandler cfg oracle ⟨body, qdbg, none, qmock, none⟩).1.1 = 500 →
      (∃ e, (robustAsk oracle cfg.defaultModel cfg.fallbackModels
          (retryInstr ++ "\n\n" ++ buildUserText a1 a2 a3 a4)).1 = .error e) ∨
      (∃ raw2 m2, (robustAsk oracle cfg.defaultModel cfg.fallbackModels
          (retryInstr ++ "\n\n" ++ buildUserText a1 a2 a3 a4)).1 = .ok (raw2, m2) ∧
        extractJson raw2 = none)) := by
  have hmain := handler_after_extract_fail cfg oracle body qdbg qmock a1 a2 a3 a4 raw1 m1
    hbody hmock hr1 hext
  refine ⟨?_, ?_, ?_⟩
  · rw [hmain]
    cases hr2 : (robustAsk oracle cfg.defaultModel cfg.fallbackModels
        (retryInstr ++ "\n\n" ++ buildUserText a1 a2 a3 a4)).1 with
    | error e => rfl
    | ok p =>
      obtain ⟨raw2, m2⟩ := p
      dsimp only
      cases hx2 : extractJson raw2 with
      | none => rfl
      | some out => rfl
  · intro raw2 m2 hr2 out hout
    rw [hmain, hr2]
    dsimp only
    rw [hout]
  · intro h500
    rw [hmain] at h500
    cases hr2 : (robustAsk oracle cfg.defaultModel cfg.fallbackModels
        (retryInstr ++ "\n\n" ++ buildUserText a1 a2 a3 a4)).1 with
    | error e => exact Or.inl ⟨e, rfl⟩
    | ok p =>
      obtain ⟨raw2, m2⟩ := p
      rw [hr2] at h500
      dsimp only at h500
      cases hx2 : extractJson raw2 with
      | none => exact Or.inr ⟨raw2, m2, rfl, hx2⟩
      | some out =>
        rw [hx2] at h500
        simp at h500

/-- Witness for C7 at a concrete oracle: the first round succeeds with
non-JSON text, the shortened-prompt round succeeds on the fallback model with
valid JSON, and the response is a 200 assessment. -/
theorem c7_malformed_retry_witness :
    parseAnswers reqPlain.body = some ("one", "two", "three", "four") ∧
    extractJson "no json here" = none ∧
    (assessHandler cfgEx oracleRetryDemo reqPlain).1 =
      (200, .assessment (normalizeResult (.obj [("score", .num (.fin (intToRq 7))),
        ("reasons", .str "ok"), ("suggestions", .arr [])])) "model-a") :=
  ⟨rfl, rfl,
    (c7_malformed_retry cfgEx oracleRetryDemo reqPlain.body none none
      "one" "two" "three" "four" "no json here" "model-a" rfl (by simp) rfl rfl).2.1
      "\x7b\"score\":7,\"reasons\":\"ok\",\"suggestions\":[]\x7d" "model-b" rfl
      (.obj [("score", .num (.fin (intToRq 7))), ("reasons", .str "ok"),
        ("suggestions", .arr [])]) rfl⟩

/-- C10: when extraction of the first round's text fails and the shortened
retry round succeeds, the `_meta.model` of the successful 200 response is the
model recorded by the first round (`usedModel`), not the model of the retry
round that actually produced the parsed completion. -/
theorem c10_meta_model (cfg : Config) (oracle : Oracle) (body : Js)
    (qdbg qmock : Option String) (a1 a2 a3 a4 raw1 m1 raw2 m2 : String) (out : Js)
    (hbody : parseAnswers body = some (a1, a2, a3, a4))
    (hmock : qmock ≠ some "1")
    (hr1 : (robustAsk oracle cfg.defaultModel cfg.fallbackModels (buildUserText a1 a2 a3 a4)).1
        = .ok (raw1, m1))
    (hext : extractJson raw1 = none)
    (hr2 : (robustAsk oracle cfg.defaultModel cfg.fallbackModels
        (retryInstr ++ "\n\n" ++ buildUserText a1 a2 a3 a4)).1 = .ok (raw2, m2))
    (hext2 : extractJson raw2 = some out) :
    assessHandler cfg oracle ⟨body, qdbg, none, qmock, none⟩ =
      ((200, .assessment (normalizeResult out) m1),
        (robustAsk oracle cfg.defaultModel cfg.fallbackModels (buildUserText a1 a2 a3 a4)).2 ++
        (robustAsk oracle cfg.defaultModel cfg.fallbackModels
          (retryInstr ++ "\n\n" ++ buildUserText a1 a2 a3 a4)).2) := by
  rw [handler_after_extract_fail cfg oracle body qdbg qmock a1 a2 a3 a4 raw1 m1
    hbody hmock hr1 hext, hr2]
  dsimp only
  rw [hext2]

/-- Witness for C10 at a concrete oracle where the retry round's model
differs from the first round's: the reported `_meta.model` is the first
round's model even though the returned output came from the fallback. -/
theorem c10_meta_model_witness :
    (robustAsk oracleRetryDemo "model-a" ["model-b"]
        (buildUserText "one" "two" "three" "four")).1 = .ok ("no json here", "model-a") ∧
    (robustAsk oracleRetryDemo "model-a" ["model-b"]
        (retryInstr ++ "\n\n" ++ buildUserText "one" "two" "three" "four")).1
      = .ok ("\x7b\"score\":7,\"reasons\":\"ok\",\"suggestions\":[]\x7d", "model-b") ∧
    ("model-a" : String) ≠ "model-b" ∧
    (assessHandler cfgEx oracleRetryDemo reqPlain).1 =
      (200, .assessment (normalizeResult (.obj [("score", .num (.fin (intToRq 7))),
        ("reasons", .str "ok"), ("suggestions", .arr [])])) "model-a") :=
  ⟨rfl, rfl, by decide,
    congrArg Prod.fst
      (c10_meta_model cfgEx oracleRetryDemo reqPlain.body none none
        "one" "two" "three" "four" "no json here" "model-a"
        "\x7b\"score\":7,\"reasons\":\"ok\",\"suggestions\":[]\x7d" "model-b"
        (.obj [("score", .num (.fin (intToRq 7))), ("reasons", .str "ok"),
          ("suggestions", .arr [])])
        rfl (by simp) rfl rfl rfl rfl)⟩

theorem firstFromSpec_eq_head (p : Nat → Bool) :
    ∀ r a, (((List.range r).map (fun i => i + a)).filter p).head? = firstFromSpec p r a := by
  intro r
  induction r with
  | zero => intro a; rfl
  | succ r ih =>
    intro a
    rw [List.range_succ_eq_map]
    simp only [List.map_cons, List.map_map, List.filter_cons, Nat.zero_add]
    have hcomp : (List.range r).map ((fun i => i + a) ∘ (fun i => i + 1))
        = (List.range r).map (fun i => i + (a + 1)) := by
      apply List.map_congr_left
      intro i _
      simp only [Function.comp]
      omega
    rw [hcomp]
    by_cases hp : p a
    · rw [if_pos hp]
      conv_rhs => unfold firstFromSpec
      rw [if_pos hp]
      rfl
    · rw [if_neg hp, ih (a + 1)]
      conv_rhs => unfold firstFromSpec
      rw [if_neg hp]

theorem firstFromSpec_ge (p : Nat → Bool) :
    ∀ r a n, firstFromSpec p r a = some n → a ≤ n := by
  intro r
  induction r with
  | zero => intro a n h; exact absurd h (by simp [firstFromSpec])
  | succ r ih =>
    intro a n h
    unfold firstFromSpec at h
    by_cases hp : p a
    · rw [if_pos hp] at h
      simp at h
      omega
    · rw [if_neg hp] at h
      have := ih (a + 1) n h
      omega

theorem stepsUntil_eq (p : Nat → Bool) :
    ∀ r a, stepsUntil p r a =
      (match firstFromSpec p r a with
        | some n => n - a
        | none => r) := by
  intro r
  induction r with
  | zero => intro a; rfl
  | succ r ih =>
    intro a
    unfold stepsUntil firstFromSpec
    by_cases hp : p a
    · rw [if_pos hp, if_pos hp]
      simp
    · rw [if_neg hp, if_neg hp]
      rw [ih (a + 1)]
      cases hf : firstFromSpec p r (a + 1) with
      | none => rfl
      | some n =>
        have hge := firstFromSpec_ge p r (a + 1) n hf
        show n - (a + 1) + 1 = n - a
        omega

theorem wakeGo_spec (heads gets : Nat → ProbeResult) :
    ∀ r a b, wakeGo heads gets r a b =
      (firstFromSpec (probeSucceeds heads gets) r a,
        backoffSeq b (stepsUntil (probeSucceeds heads gets) r a)) := by
  intro r
  induction r with
  | zero => intro a b; rfl
  | succ r ih =>
    intro a b
    unfold wakeGo firstFromSpec stepsUntil
    by_cases hp : probeSucceeds heads gets a
    · rw [if_pos hp, if_pos hp, if_pos hp]
      rfl
    · rw [if_neg hp, if_neg hp, if_neg hp]
      rw [ih (a + 1) (min (b * 2) 7000)]
      rfl

/-- C9: the availability prober probes once per attempt (HEAD first, falling
back to GET on the same attempt when the HEAD request returns a status
outside the success range), returns the first attempt in `[1, maxAttempts]`
whose probe observes a success-range status (`none` models the single
"did not wake in time" error after the ceiling), and sleeps exactly the
backoff sequence that starts at the given value and doubles up to the 7000 ms
cap — one sleep per failed attempt before the success, or one per attempt on
total failure.  In the scenario where the target returns non-2xx for the
first two probes and 2xx on the third, it succeeds on the third attempt after
sleeping exactly the first two backoff values 500 and 1000. -/
theorem c9_prober (heads gets : Nat → ProbeResult) (maxAttempts startBackoffMs : Nat) :
    (wakeServer heads gets maxAttempts startBackoffMs).1
      = firstProbeSuccess heads gets maxAttempts ∧
    (wakeServer heads gets maxAttempts startBackoffMs).2
      = backoffSeq startBackoffMs
          (match firstProbeSuccess heads gets maxAttempts with
            | some n => n - 1
            | none => maxAttempts) ∧
    wakeServer heads3 gets3 6 500 = (some 3, [500, 1000]) ∧
    ([500, 1000] : List Nat) = backoffSeq 500 2 := by
  have hspec := wakeGo_spec heads gets maxAttempts 1 startBackoffMs
  have hfirst : firstProbeSuccess heads gets maxAttempts
      = firstFromSpec (probeSucceeds heads gets) maxAttempts 1 :=
    firstFromSpec_eq_head (probeSucceeds heads gets) maxAttempts 1
  refine ⟨?_, ?_, by decide, rfl⟩
  · show (wakeGo heads gets maxAttempts 1 startBackoffMs).1 = _
    rw [hspec, hfirst]
  · show (wakeGo heads gets maxAttempts 1 startBackoffMs).2 = _
    rw [hspec, hfirst, stepsUntil_eq]

/-! ## C5: decimal digit strings re-parse to their value -/

theorem digitChar_toNat (d : Nat) (h : d < 10) : (digitChar d).toNat = 48 + d := by
  interval_cases d <;> rfl

theorem isDigitCh_digitChar (d : Nat) (h : d < 10) : isDigitCh (digitChar d) = true := by
  interval_cases d <;> rfl

theorem digitChar_ne_zero (d : Nat) (h : d < 10) (h0 : d ≠ 0) : digitChar d ≠ '0' := by
  interval_cases d
  · exact absurd rfl h0
  all_goals decide

theorem isDigitCh_bounds (c : Char) (h : isDigitCh c = true) :
    48 ≤ c.toNat ∧ c.toNat ≤ 57 := by
  simpa [isDigitCh] using h

theorem char_not_surrogate (c : Char) : ¬ (0xD800 ≤ c.toNat ∧ c.toNat ≤ 0xDFFF) := by
  have h := c.valid
  intro hc
  unfold UInt32.isValidChar Nat.isValidChar at h
  unfold Char.toNat at hc
  rcases h with h | ⟨h1, h2⟩ <;> omega

theorem jsonWs_digit (c : Char) (hd : isDigitCh c = true) : jsonWs c = false := by
  obtain ⟨h1, h2⟩ := isDigitCh_bounds c hd
  cases h : jsonWs c with
  | false => rfl
  | true =>
    exfalso
    simp only [jsonWs, Bool.or_eq_true, beq_iff_eq, decide_eq_true_eq, Bool.and_eq_true,
      or_assoc] at h
    rcases h with h | h | h | h | h | h | h | h | ⟨h3, h4⟩ | h | h | h | h | h | h
    all_goals first
      | omega
      | (subst h; exact absurd h1 (by decide))
      | exact absurd h1 (by decide)

theorem natDigitsGo_succ (f n : Nat) : natDigitsGo (f + 1) n =
    if n < 10 then [digitChar n] else natDigitsGo f (n / 10) ++ [digitChar (n % 10)] := rfl

theorem natDigitsGo_fuel (n : Nat) : ∀ f g, n ≤ f → n ≤ g →
    natDigitsGo (f + 1) n = natDigitsGo (g + 1) n := by
  induction n using Nat.strong_induction_on with
  | _ n ih =>
    intro f g hf hg
    by_cases h10 : n < 10
    · rw [natDigitsGo_succ f n, natDigitsGo_succ g n, if_pos h10, if_pos h10]
    · obtain ⟨f2, rfl⟩ : ∃ f2, f = f2 + 1 := ⟨f - 1, by omega⟩
      obtain ⟨g2, rfl⟩ : ∃ g2, g = g2 + 1 := ⟨g - 1, by omega⟩
      have hlt : n / 10 < n := Nat.div_lt_self (by omega) (by omega)
      rw [natDigitsGo_succ (f2 + 1) n, natDigitsGo_succ (g2 + 1) n, if_neg h10, if_neg h10]
      rw [ih (n / 10) hlt f2 g2 (by omega) (by omega)]

theorem natDigits_small (n : Nat) (h : n < 10) : natDigits n = [digitChar n] := by
  simp [natDigits, natDigitsGo, h]

theorem natDigits_unfold (n : Nat) (h : ¬ n < 10) :
    natDigits n = natDigits (n / 10) ++ [digitChar (n % 10)] := by
  have h1 : n / 10 < n := Nat.div_lt_self (by omega) (by omega)
  obtain ⟨m, rfl⟩ : ∃ m, n = m + 1 := ⟨n - 1, by omega⟩
  show natDigitsGo (m + 1 + 1) (m + 1) = _
  rw [natDigitsGo_succ (m + 1) (m + 1), if_neg h]
  congr 1
  exact natDigitsGo_fuel ((m + 1) / 10) m ((m + 1) / 10) (by omega) (by omega)

theorem digitsVal_append_one (l : List Char) (c : Char) :
    digitsVal (l ++ [c]) = digitsVal l * 10 + (c.toNat - 48) := by
  simp [digitsVal, List.foldl_append]

theorem digitsVal_natDigits (n : Nat) : digitsVal (natDigits n) = n := by
  induction n using Nat.strong_induction_on with
  | _ n ih =>
    by_cases h : n < 10
    · rw [natDigits_small n h]
      simp [digitsVal, digitChar_toNat n h]
    · rw [natDigits_unfold n h, digitsVal_append_one,
        ih (n / 10) (Nat.div_lt_self (by omega) (by omega)),
        digitChar_toNat (n % 10) (by omega)]
      omega

theorem natDigits_all_digit (n : Nat) : ∀ c ∈ natDigits n, isDigitCh c = true := by
  induction n using Nat.strong_induction_on with
  | _ n ih =>
    by_cases h : n < 10
    · rw [natDigits_small n h]
      intro c hc
      simp at hc
      subst hc
      exact isDigitCh_digitChar n h
    · rw [natDigits_unfold n h]
      intro c hc
      rw [List.mem_append] at hc
      rcases hc with hc | hc
      · exact ih (n / 10) (Nat.div_lt_self (by omega) (by omega)) c hc
      · simp at hc
        subst hc
        exact isDigitCh_digitChar (n % 10) (by omega)

theorem natDigits_cons (n : Nat) :
    ∃ c t, natDigits n = c :: t ∧ isDigitCh c = true ∧ (n ≠ 0 → c ≠ '0') := by
  induction n using Nat.strong_induction_on with
  | _ n ih =>
    by_cases h : n < 10
    · exact ⟨digitChar n, [], natDigits_small n h, isDigitCh_digitChar n h,
        fun h0 => digitChar_ne_zero n h h0⟩
    · obtain ⟨c, t, hct, hd, hz⟩ := ih (n / 10) (Nat.div_lt_self (by omega) (by omega))
      refine ⟨c, t ++ [digitChar (n % 10)], ?_, hd, fun _ => hz (by omega)⟩
      rw [natDigits_unfold n h, hct]
      rfl

theorem natDigits_length_le (k : Nat) : ∀ n, n < 10 ^ k → 1 ≤ k → (natDigits n).length ≤ k := by
  induction k with
  | zero => intro n _ h1; omega
  | succ k ih =>
    intro n hn _
    by_cases h : n < 10
    · rw [natDigits_small n h]
      simp
    · have hk : 1 ≤ k := by
        by_contra hk0
        have hz : k = 0 := by omega
        subst hz
        simp at hn
        omega
      have hq : n / 10 < 10 ^ k := by
        rw [Nat.div_lt_iff_lt_mul (by omega)]
        calc n < 10 ^ (k + 1) := hn
          _ = 10 ^ k * 10 := by ring
      rw [natDigits_unfold n h]
      have := ih (n / 10) hq hk
      simp only [List.length_append, List.length_cons, List.length_nil]
      omega

theorem takeWhile_dropWhile_digits (ds : List Char) (rest : List Char)
    (hds : ∀ c ∈ ds, isDigitCh c = true)
    (hrest : ∀ c t, rest = c :: t → isDigitCh c = false) :
    (ds ++ rest).takeWhile isDigitCh = ds ∧ (ds ++ rest).dropWhile isDigitCh = rest := by
  induction ds with
  | nil =>
    cases rest with
    | nil => exact ⟨rfl, rfl⟩
    | cons c t =>
      have hc := hrest c t rfl
      constructor
      · simp [List.takeWhile_cons, hc]
      · simp [List.dropWhile_cons, hc]
  | cons d ds ih =>
    have hd : isDigitCh d = true := hds d (by simp)
    have ih2 := ih (fun c hc => hds c (by simp [hc]))
    constructor
    · simp [List.takeWhile_cons, hd, ih2.1]
    · simp [List.dropWhile_cons, hd, ih2.2]

theorem spanDigits_append (ds rest : List Char)
    (hds : ∀ c ∈ ds, isDigitCh c = true)
    (hrest : ∀ c t, rest = c :: t → isDigitCh c = false) :
    spanDigits (ds ++ rest) = (ds, rest) := by
  have h := takeWhile_dropWhile_digits ds rest hds hrest
  simp [spanDigits, h.1, h.2]

theorem digitsVal_replicate_zero (j : Nat) (l : List Char) :
    digitsVal (List.replicate j '0' ++ l) = digitsVal l := by
  induction j with
  | zero => rfl
  | succ j ih =>
    simp only [List.replicate_succ, List.cons_append]
    show digitsVal (List.replicate j '0' ++ l) = digitsVal l
    exact ih

theorem padDigits_val (k m : Nat) : digitsVal (padDigits k m) = m := by
  unfold padDigits
  rw [digitsVal_replicate_zero, digitsVal_natDigits]

theorem padDigits_length (k m : Nat) (h : (natDigits m).length ≤ k) :
    (padDigits k m).length = k := by
  simp [padDigits, List.length_append, List.length_replicate]
  omega

theorem padDigits_all_digit (k m : Nat) : ∀ c ∈ padDigits k m, isDigitCh c = true := by
  intro c hc
  unfold padDigits at hc
  rw [List.mem_append] at hc
  rcases hc with hc | hc
  · rw [List.eq_of_mem_replicate hc]
    rfl
  · exact natDigits_all_digit m c hc

theorem padDigits_ne_nil (k m : Nat) : padDigits k m ≠ [] := by
  obtain ⟨c, t, hct, _, _⟩ := natDigits_cons m
  unfold padDigits
  rw [hct]
  simp

/-! ## C5: canonical rationals are determined by their cross-multiplication -/

theorem rqCanon_fields (q : Rq) (h : rqCanon q = true) :
    q.den ≠ 0 ∧ Nat.gcd q.num.natAbs q.den = 1 := by
  simpa [rqCanon] using h

theorem rq_eq_of_cross (q r : Rq) (hq : rqCanon q = true) (hr : rqCanon r = true)
    (h : q.num * (r.den : Int) = r.num * (q.den : Int)) : q = r := by
  obtain ⟨hqd, hqg⟩ := rqCanon_fields q hq
  obtain ⟨hrd, hrg⟩ := rqCanon_fields r hr
  have habs : q.num.natAbs * r.den = r.num.natAbs * q.den := by
    have h2 := congrArg Int.natAbs h
    simpa [Int.natAbs_mul] using h2
  have hdvd1 : q.den ∣ r.den := by
    have h1 : q.den ∣ q.num.natAbs * r.den := ⟨r.num.natAbs, by rw [habs]; ring⟩
    exact (Nat.Coprime.dvd_of_dvd_mul_left (Nat.Coprime.symm hqg) h1)
  have hdvd2 : r.den ∣ q.den := by
    have h1 : r.den ∣ r.num.natAbs * q.den := ⟨q.num.natAbs, by rw [← habs]; ring⟩
    exact (Nat.Coprime.dvd_of_dvd_mul_left (Nat.Coprime.symm hrg) h1)
  have hden : q.den = r.den := Nat.dvd_antisymm hdvd1 hdvd2
  have hnum : q.num = r.num := by
    have hr0 : ((r.den : Int)) ≠ 0 := by
      exact_mod_cast hrd
    apply mul_right_cancel₀ hr0
    rw [h, hden]
  cases q
  cases r
  simp only [Rq.mk.injEq]
  exact ⟨hnum, hden⟩

theorem rqMk_eq_of (a : Int) (b : Nat) (hb : b ≠ 0) (q : Rq) (hq : rqCanon q = true)
    (hcross : a * (q.den : Int) = q.num * (b : Int)) : rqMk a b = q := by
  obtain ⟨hqd, hqg⟩ := rqCanon_fields q hq
  have hmkdef : rqMk a b = ⟨a / ((Nat.gcd a.natAbs b : Int)), b / Nat.gcd a.natAbs b⟩ := rfl
  set g := Nat.gcd a.natAbs b with hgdef
  have hgb : g ∣ b := Nat.gcd_dvd_right _ _
  have hga : g ∣ a.natAbs := Nat.gcd_dvd_left _ _
  have hg0 : g ≠ 0 := fun hz => hb (Nat.eq_zero_of_gcd_eq_zero_right hz)
  have hcdg := Nat.coprime_div_gcd_div_gcd (m := a.natAbs) (n := b) (Nat.pos_of_ne_zero hg0)
  obtain ⟨a2, ha2⟩ : ((g : Int)) ∣ a := Int.natAbs_dvd_natAbs.mp (by rwa [Int.natAbs_ofNat])
  obtain ⟨b2, hb2⟩ := hgb
  have hgI : ((g : Int)) ≠ 0 := by exact_mod_cast hg0
  have hag : a / ((g : Int)) = a2 := by
    rw [ha2]
    exact Int.mul_ediv_cancel_left a2 hgI
  have hbg : b / g = b2 := by
    rw [hb2]
    exact Nat.mul_div_cancel_left b2 (Nat.pos_of_ne_zero hg0)
  have hb20 : b2 ≠ 0 := fun hz => hb (by rw [hb2, hz, Nat.mul_zero])
  have ha2abs : a.natAbs = g * a2.natAbs := by
    rw [ha2, Int.natAbs_mul, Int.natAbs_ofNat]
  have hcop : Nat.gcd a2.natAbs b2 = 1 := by
    have h1 : a.natAbs / g = a2.natAbs := by
      rw [ha2abs]
      exact Nat.mul_div_cancel_left _ (Nat.pos_of_ne_zero hg0)
    rwa [h1, hbg] at hcdg
  have hcan2 : rqCanon ⟨a2, b2⟩ = true := by
    simp [rqCanon]
    exact ⟨hb20, hcop⟩
  have hcross2 : a2 * ((q.den : Int)) = q.num * ((b2 : Int)) := by
    apply mul_left_cancel₀ hgI
    calc ((g : Int)) * (a2 * (q.den : Int))
        = a * (q.den : Int) := by rw [ha2]; ring
      _ = q.num * (b : Int) := hcross
      _ = ((g : Int)) * (q.num * (b2 : Int)) := by
          rw [hb2]
          push_cast
          ring
  rw [hmkdef, hag, hbg]
  exact rq_eq_of_cross ⟨a2, b2⟩ q hcan2 hq hcross2

theorem decimalValue_int (ip : Nat) : decimalValue ip 0 0 0 = rqMk (ip : Int) 1 := by
  simp [decimalValue]

theorem decimalValue_frac (ip m k : Nat) :
    decimalValue ip m k 0 = rqMk ((ip * 10 ^ k + m : Nat) : Int) (10 ^ k) := by
  simp [decimalValue]

/-! ## C5: a printed number is re-parsed exactly -/

theorem restStop_not_digit (rest : List Char) (hr : restStop rest) :
    ∀ c t, rest = c :: t → isDigitCh c = false := by
  intro c t h
  subst h
  rcases hr with hc | hc | hc <;> (subst hc; rfl)

theorem afterExp_stop (ip fp flen : Nat) (rest : List Char) (hr : restStop rest) :
    parseJsonUnsigned.afterExp ip fp flen rest = some (decimalValue ip fp flen 0, rest) := by
  cases rest with
  | nil => rfl
  | cons c t => rcases hr with hc | hc | hc <;> (subst hc; rfl)

theorem afterInt_stop (ip : Nat) (rest : List Char) (hr : restStop rest) :
    parseJsonUnsigned.afterInt ip rest = some (decimalValue ip 0 0 0, rest) := by
  cases rest with
  | nil => rfl
  | cons c t => rcases hr with hc | hc | hc <;> (subst hc; rfl)

theorem afterInt_frac (ip k m : Nat) (hk : 1 ≤ k) (hm : m < 10 ^ k)
    (rest : List Char) (hr : restStop rest) :
    parseJsonUnsigned.afterInt ip ('.' :: (padDigits k m ++ rest)) =
      some (decimalValue ip m k 0, rest) := by
  have hspan : spanDigits (padDigits k m ++ rest) = (padDigits k m, rest) :=
    spanDigits_append _ _ (padDigits_all_digit k m) (restStop_not_digit rest hr)
  have hlen : (padDigits k m).length = k :=
    padDigits_length k m (natDigits_length_le k m hm hk)
  have hval : digitsVal (padDigits k m) = m := padDigits_val k m
  have hne : (padDigits k m).isEmpty = false := by
    cases hpd : padDigits k m with
    | nil => exact absurd hpd (padDigits_ne_nil k m)
    | cons a b => rfl
  show parseJsonUnsigned.afterInt ip ('.' :: (padDigits k m ++ rest)) = _
  unfold parseJsonUnsigned.afterInt
  simp only [hspan, hval, hlen, hne]
  exact afterExp_stop ip m k rest hr

theorem parseUnsigned_entry (c : Char) (t : List Char) (hc : isDigitCh c = true)
    (h0 : c ≠ '0') :
    parseJsonUnsigned (c :: t) =
      parseJsonUnsigned.afterInt (digitsVal (spanDigits (c :: t)).1) (spanDigits (c :: t)).2 := by
  unfold parseJsonUnsigned
  split
  · rename_i heq
    exfalso
    injection heq with h1 _
    exact h0 h1
  · rename_i heq
    injection heq with h1 _
    subst h1
    rw [if_pos (by simp [hc, bne_iff_ne, h0])]
  · rename_i heq
    exact absurd heq (by simp)

theorem parseNumber_not_neg (c : Char) (t : List Char) (h : c ≠ '-') :
    parseJsonNumber (c :: t) = parseJsonUnsigned (c :: t) := by
  unfold parseJsonNumber
  split
  · rename_i heq
    exfalso
    injection heq with h1 _
    exact h h1
  · rfl

theorem rqMk_num (a : Int) (b : Nat) :
    (rqMk a b).num = a / ((Nat.gcd a.natAbs b : Nat) : Int) := rfl

theorem parse_unsigned (q : Rq) (hcan : rqCanon q = true) (hdec : rqDecadic q = true)
    (hpos : 0 ≤ q.num) (rest : List Char) (hr : restStop rest) :
    parseJsonUnsigned (printNumPos q ++ rest) = some (q, rest) := by
  obtain ⟨hden0, hgcd1⟩ := rqCanon_fields q hcan
  set K := max (multOf 2 q.den) (multOf 5 q.den) with hKdef
  have hdvd : q.den ∣ 10 ^ K := Nat.dvd_of_mod_eq_zero (by simpa [rqDecadic] using hdec)
  set nn := q.num.toNat with hnndef
  have hnum : q.num = (nn : Int) := (Int.toNat_of_nonneg hpos).symm
  have hdvd2 : q.den ∣ nn * 10 ^ K := Dvd.dvd.mul_left hdvd nn
  set N := nn * 10 ^ K / q.den with hNdef
  have hND : N * q.den = nn * 10 ^ K := Nat.div_mul_cancel hdvd2
  have hXeq : q.num * ((10 ^ K : Nat) : Int) = ((nn * 10 ^ K : Nat) : Int) := by
    rw [hnum]
    push_cast
    ring
  have hmulnum : (rqMulPow10 q K).num.toNat = N := by
    have h1 : rqMulPow10 q K = rqMk ((nn * 10 ^ K : Nat) : Int) q.den := by
      show rqMk (q.num * ((10 ^ K : Nat) : Int)) q.den = _
      rw [hXeq]
    rw [h1, rqMk_num, Int.natAbs_ofNat, Nat.gcd_eq_right hdvd2]
    rfl
  have hprint : printNumPos q =
      (if K = 0 then natDigits N
       else natDigits (N / 10 ^ K) ++ '.' :: padDigits K (N % 10 ^ K)) := by
    simp only [printNumPos]
    rw [← hKdef, hmulnum]
  by_cases hK : K = 0
  · have hden1 : q.den = 1 := by
      rw [hK, pow_zero] at hdvd
      exact Nat.dvd_one.mp hdvd
    have hNeq : N = nn := by
      rw [hNdef, hden1, hK, pow_zero, Nat.mul_one, Nat.div_one]
    rw [hprint, if_pos hK, hNeq]
    have hqfin : rqMk ((nn : Nat) : Int) 1 = q := by
      apply rqMk_eq_of _ _ one_ne_zero q hcan
      rw [hnum, hden1]
      try push_cast
      try ring
    by_cases hnz : nn = 0
    · rw [hnz, show natDigits 0 = ['0'] from rfl, List.singleton_append]
      have hg : ((rest.headD ' ').isDigit) = false := by
        cases rest with
        | nil => rfl
        | cons c2 t2 => rcases hr with hc2 | hc2 | hc2 <;> (subst hc2; rfl)
      show (if (rest.headD ' ').isDigit then none
            else parseJsonUnsigned.afterInt 0 rest) = some (q, rest)
      rw [if_neg (by rw [hg]; decide), afterInt_stop 0 rest hr, decimalValue_int]
      rw [hnz] at hqfin
      rw [hqfin]
    · obtain ⟨c, t, hct, hcd, hcz⟩ := natDigits_cons nn
      rw [hct, List.cons_append, parseUnsigned_entry c (t ++ rest) hcd (hcz hnz)]
      have hspan : spanDigits (c :: (t ++ rest)) = (natDigits nn, rest) := by
        rw [← List.cons_append, ← hct]
        exact spanDigits_append _ _ (natDigits_all_digit nn) (restStop_not_digit rest hr)
      rw [hspan, digitsVal_natDigits, afterInt_stop nn rest hr, decimalValue_int, hqfin]
  · have hKpos : 1 ≤ K := by omega
    have hpow : 0 < 10 ^ K := pow_pos (by omega) K
    have hmlt : N % 10 ^ K < 10 ^ K := Nat.mod_lt _ hpow
    rw [hprint, if_neg hK]
    set ip := N / 10 ^ K with hipdef
    set m := N % 10 ^ K with hmdef
    have hfrac := afterInt_frac ip K m hKpos hmlt rest hr
    have hstopdot : ∀ c2 t2, ('.' :: (padDigits K m ++ rest)) = c2 :: t2 →
        isDigitCh c2 = false := by
      intro c2 t2 h2
      injection h2 with h3 _
      subst h3
      rfl
    have hsum : ip * 10 ^ K + m = N := by
      rw [Nat.mul_comm]
      exact Nat.div_add_mod N (10 ^ K)
    have hqfin : rqMk ((N : Nat) : Int) (10 ^ K) = q := by
      apply rqMk_eq_of _ _ hpow.ne' q hcan
      rw [hnum]
      exact_mod_cast congrArg (Nat.cast : Nat → Int) hND
    rw [List.append_assoc, List.cons_append]
    by_cases hz : ip = 0
    · rw [hz] at hfrac
      rw [hz, show natDigits 0 = ['0'] from rfl, List.singleton_append]
      show (if (('.' :: (padDigits K m ++ rest)).headD ' ').isDigit then none
            else parseJsonUnsigned.afterInt 0 ('.' :: (padDigits K m ++ rest)))
          = some (q, rest)
      rw [if_neg (by simp), hfrac, decimalValue_frac,
        show (0 : Nat) * 10 ^ K + m = N from by rw [← hsum, hz], hqfin]
    · obtain ⟨c, t, hct, hcd, hcz⟩ := natDigits_cons ip
      rw [hct, List.cons_append, parseUnsigned_entry c _ hcd (hcz hz)]
      have hspan : spanDigits (c :: (t ++ ('.' :: (padDigits K m ++ rest))))
          = (natDigits ip, '.' :: (padDigits K m ++ rest)) := by
        rw [← List.cons_append, ← hct]
        exact spanDigits_append _ _ (natDigits_all_digit ip) hstopdot
      rw [hspan, digitsVal_natDigits, hfrac, decimalValue_frac, hsum, hqfin]

theorem rqNeg_rqNeg (q : Rq) : rqNeg (rqNeg q) = q := by
  cases q
  simp [rqNeg]

theorem rqCanon_rqNeg (q : Rq) (h : rqCanon q = true) : rqCanon (rqNeg q) = true := by
  simpa [rqCanon, rqNeg] using h

theorem rqDecadic_rqNeg (q : Rq) (h : rqDecadic q = true) : rqDecadic (rqNeg q) = true := by
  simpa [rqDecadic, rqNeg] using h

theorem parse_printNum (q : Rq) (hcan : rqCanon q = true) (hdec : rqDecadic q = true)
    (rest : List Char) (hr : restStop rest) :
    parseJsonNumber (printNum q ++ rest) = some (q, rest) := by
  by_cases hneg : q.num < 0
  · have h1 := parse_unsigned (rqNeg q) (rqCanon_rqNeg q hcan) (rqDecadic_rqNeg q hdec)
      (by simp [rqNeg]; omega) rest hr
    simp only [printNum, if_pos hneg, List.cons_append]
    show (parseJsonUnsigned (printNumPos (rqNeg q) ++ rest)).map
        (fun p => (rqNeg p.1, p.2)) = some (q, rest)
    rw [h1]
    simp [rqNeg_rqNeg]
  · have h1 := parse_unsigned q hcan hdec (by omega) rest hr
    simp only [printNum, if_neg hneg]
    obtain ⟨c, t, hct, hcd⟩ : ∃ c t, printNumPos q = c :: t ∧ isDigitCh c = true := by
      obtain ⟨c1, t1, h1a, h1b, _⟩ := natDigits_cons ((rqMulPow10 q
        (max (multOf 2 q.den) (multOf 5 q.den))).num.toNat / 10 ^ (max (multOf 2 q.den) (multOf 5 q.den)))
      obtain ⟨c0, t0, h0a, h0b, _⟩ := natDigits_cons ((rqMulPow10 q
        (max (multOf 2 q.den) (multOf 5 q.den))).num.toNat)
      simp only [printNumPos]
      by_cases hcase : max (multOf 2 q.den) (multOf 5 q.den) = 0
      · rw [if_pos hcase]
        exact ⟨c0, t0, h0a, h0b⟩
      · rw [if_neg hcase]
        exact ⟨c1, t1 ++ '.' :: padDigits _ _, by rw [h1a]; rfl, h1b⟩
    rw [hct, List.cons_append, parseNumber_not_neg c _ (by
      obtain ⟨hb1, hb2⟩ := isDigitCh_bounds c hcd
      intro he
      subst he
      exact absurd hb1 (by decide)), ← List.cons_append, ← hct]
    exact h1

/-! ## C5: an escaped string body is re-parsed exactly -/

theorem hexDigitVal_hexChar (d : Nat) (h : d < 16) : hexDigitVal (hexDigitChar d) = some d := by
  interval_cases d <;> rfl

set_option maxHeartbeats 1000000 in
theorem strUnits_other (c : Char) (r : List Char) (h1 : ¬ c = '"') (h2 : ¬ c = '\\')
    (h3 : ¬ c.toNat < 32) :
    strUnits (c :: r) = (strUnits r).map (fun p => (c.toNat :: p.1, p.2)) := by
  conv_lhs => unfold strUnits
  split
  · rename_i heq
    exact absurd heq (by simp)
  · rename_i heq
    exfalso
    injection heq with ha _
    exact h1 ha
  · rename_i heq
    exfalso
    injection heq with ha _
    exact h2 ha
  · rename_i heq
    injection heq with ha hb
    subst ha
    subst hb
    rw [if_neg h3]

theorem escChar_control (c : Char) (h1 : ¬ c = '"') (h2 : ¬ c = '\\') (h3 : ¬ c = '\x08')
    (h4 : ¬ c = '\t') (h5 : ¬ c = '\n') (h6 : ¬ c = '\x0c') (h7 : ¬ c = '\r')
    (h8 : c.toNat < 32) :
    escChar c = ['\\', 'u', '0', '0', hexDigitChar (c.toNat / 16), hexDigitChar (c.toNat % 16)] := by
  simp [escChar, beq_iff_eq, h1, h2, h3, h4, h5, h6, h7, h8]

theorem escChar_plain (c : Char) (h1 : ¬ c = '"') (h2 : ¬ c = '\\') (h8 : ¬ c.toNat < 32) :
    escChar c = [c] := by
  have h3 : ¬ c = '\x08' := fun he => h8 (by subst he; decide)
  have h4 : ¬ c = '\t' := fun he => h8 (by subst he; decide)
  have h5 : ¬ c = '\n' := fun he => h8 (by subst he; decide)
  have h6 : ¬ c = '\x0c' := fun he => h8 (by subst he; decide)
  have h7 : ¬ c = '\r' := fun he => h8 (by subst he; decide)
  simp [escChar, beq_iff_eq, h1, h2, h3, h4, h5, h6, h7, h8]

theorem strUnits_escString (cs : List Char) (rest : List Char) :
    strUnits (escString cs ++ '"' :: rest) = some (cs.map Char.toNat, rest) := by
  induction cs with
  | nil => rfl
  | cons c cs ih =>
    show strUnits ((escChar c ++ escString cs) ++ '"' :: rest) = _
    rw [List.append_assoc]
    by_cases h1 : c = '"'
    · subst h1
      show (strUnits (escString cs ++ '"' :: rest)).map (fun (p : List Nat × List Char) =>
          (34 :: p.1, p.2)) = _
      rw [ih]
      rfl
    · by_cases h2 : c = '\\'
      · subst h2
        show (strUnits (escString cs ++ '"' :: rest)).map (fun (p : List Nat × List Char) =>
          (92 :: p.1, p.2)) = _
        rw [ih]
        rfl
      · by_cases h3 : c = '\x08'
        · subst h3
          show (strUnits (escString cs ++ '"' :: rest)).map (fun (p : List Nat × List Char) =>
          (8 :: p.1, p.2)) = _
          rw [ih]
          rfl
        · by_cases h4 : c = '\t'
          · subst h4
            show (strUnits (escString cs ++ '"' :: rest)).map (fun (p : List Nat × List Char) =>
          (9 :: p.1, p.2)) = _
            rw [ih]
            rfl
          · by_cases h5 : c = '\n'
            · subst h5
              show (strUnits (escString cs ++ '"' :: rest)).map (fun (p : List Nat × List Char) =>
          (10 :: p.1, p.2)) = _
              rw [ih]
              rfl
            · by_cases h6 : c = '\x0c'
              · subst h6
                show (strUnits (escString cs ++ '"' :: rest)).map (fun (p : List Nat × List Char) =>
                    (12 :: p.1, p.2)) = _
                rw [ih]
                rfl
              · by_cases h7 : c = '\r'
                · subst h7
                  show (strUnits (escString cs ++ '"' :: rest)).map (fun (p : List Nat × List Char) =>
                      (13 :: p.1, p.2)) = _
                  rw [ih]
                  rfl
                · by_cases h8 : c.toNat < 32
                  · rw [show escChar c ++ (escString cs ++ '"' :: rest)
                        = '\\' :: 'u' :: '0' :: '0' :: hexDigitChar (c.toNat / 16)
                          :: hexDigitChar (c.toNat % 16) :: (escString cs ++ '"' :: rest)
                      from by rw [escChar_control c h1 h2 h3 h4 h5 h6 h7 h8]; rfl]
                    show (match hexDigitVal '0', hexDigitVal '0',
                        hexDigitVal (hexDigitChar (c.toNat / 16)),
                        hexDigitVal (hexDigitChar (c.toNat % 16)) with
                      | some a, some b, some c2, some d =>
                        (strUnits (escString cs ++ '"' :: rest)).map (fun (p : List Nat × List Char) =>
                          
                            ((((a * 16 + b) * 16 + c2) * 16 + d) :: p.1, p.2))
                      | _, _, _, _ => none) = _
                    rw [hexDigitVal_hexChar (c.toNat / 16) (by omega),
                      hexDigitVal_hexChar (c.toNat % 16) (by omega)]
                    show (strUnits (escString cs ++ '"' :: rest)).map (fun (p : List Nat × List Char) =>
                        
                          ((((0 * 16 + 0) * 16 + c.toNat / 16) * 16 + c.toNat % 16)
                          :: p.1, p.2)) = _
                    rw [ih,
                      show (((0 * 16 + 0) * 16 + c.toNat / 16) * 16 + c.toNat % 16)
                        = c.toNat from by omega]
                    rfl
                  · rw [show escChar c ++ (escString cs ++ '"' :: rest)
                        = c :: (escString cs ++ '"' :: rest)
                      from by rw [escChar_plain c h1 h2 h8]; rfl]
                    rw [strUnits_other c _ h1 h2 h8, ih]
                    rfl

theorem unitsToChars_map_toNat (cs : List Char) :
    unitsToChars none (cs.map Char.toNat) = cs := by
  induction cs with
  | nil => rfl
  | cons c cs ih =>
    show unitsToChars none (c.toNat :: cs.map Char.toNat) = c :: cs
    have hval := char_not_surrogate c
    rw [unitsToChars]
    rw [if_neg (by simp only [Bool.and_eq_true, decide_eq_true_eq, not_and, not_le]; omega),
      if_neg (by simp only [Bool.and_eq_true, decide_eq_true_eq, not_and, not_le]; omega)]
    rw [Char.ofNat_toNat, ih]

theorem parseStringBody_esc (cs rest : List Char) :
    parseStringBody (escString cs ++ '"' :: rest) = some (cs, rest) := by
  simp [parseStringBody, strUnits_escString, unitsToChars_map_toNat]

/-! ## C5: shape and size of serialized values -/

theorem printNumPos_cons (q : Rq) : ∃ c t, printNumPos q = c :: t ∧ isDigitCh c = true := by
  obtain ⟨c1, t1, h1a, h1b, _⟩ := natDigits_cons ((rqMulPow10 q
    (max (multOf 2 q.den) (multOf 5 q.den))).num.toNat /
      10 ^ (max (multOf 2 q.den) (multOf 5 q.den)))
  obtain ⟨c0, t0, h0a, h0b, _⟩ := natDigits_cons ((rqMulPow10 q
    (max (multOf 2 q.den) (multOf 5 q.den))).num.toNat)
  simp only [printNumPos]
  by_cases hcase : max (multOf 2 q.den) (multOf 5 q.den) = 0
  · rw [if_pos hcase]
    exact ⟨c0, t0, h0a, h0b⟩
  · rw [if_neg hcase]
    exact ⟨c1, t1 ++ '.' :: padDigits _ _, by rw [h1a]; rfl, h1b⟩

theorem printNum_cons (q : Rq) :
    ∃ c t, printNum q = c :: t ∧ (isDigitCh c = true ∨ c = '-') := by
  by_cases h : q.num < 0
  · exact ⟨'-', printNumPos (rqNeg q), by simp [printNum, h], Or.inr rfl⟩
  · obtain ⟨c, t, hct, hc⟩ := printNumPos_cons q
    exact ⟨c, t, by simp [printNum, h, hct], Or.inl hc⟩

theorem printV_cons (v : Js) :
    ∃ c t, printV v = c :: t ∧ jsonWs c = false ∧ c ≠ ']' ∧ c ≠ '}' := by
  cases v with
  | undef => exact ⟨'n', _, rfl, rfl, by decide, by decide⟩
  | null => exact ⟨'n', _, rfl, rfl, by decide, by decide⟩
  | bool b =>
    cases b with
    | false => exact ⟨'f', _, rfl, rfl, by decide, by decide⟩
    | true => exact ⟨'t', _, rfl, rfl, by decide, by decide⟩
  | num jn =>
    cases jn with
    | nan => exact ⟨'n', _, rfl, rfl, by decide, by decide⟩
    | posInf => exact ⟨'n', _, rfl, rfl, by decide, by decide⟩
    | negInf => exact ⟨'n', _, rfl, rfl, by decide, by decide⟩
    | fin q =>
      obtain ⟨c, t, hct, hc⟩ := printNum_cons q
      refine ⟨c, t, hct, ?_, ?_, ?_⟩
      · rcases hc with hd | hm
        · exact jsonWs_digit c hd
        · subst hm; rfl
      · rcases hc with hd | hm
        · obtain ⟨hb1, hb2⟩ := isDigitCh_bounds c hd
          intro he
          subst he
          exact absurd hb2 (by decide)
        · subst hm; decide
      · rcases hc with hd | hm
        · obtain ⟨hb1, hb2⟩ := isDigitCh_bounds c hd
          intro he
          subst he
          exact absurd hb2 (by decide)
        · subst hm; decide
  | str s => exact ⟨'"', _, rfl, rfl, by decide, by decide⟩
  | arr xs =>
    cases xs with
    | nil => exact ⟨'[', _, rfl, rfl, by decide, by decide⟩
    | cons x xs => exact ⟨'[', _, rfl, rfl, by decide, by decide⟩
  | obj ms =>
    cases ms with
    | nil => exact ⟨'{', _, rfl, rfl, by decide, by decide⟩
    | cons m ms => exact ⟨'{', _, rfl, rfl, by decide, by decide⟩

theorem printTailM_closer (ms : List (String × Js)) :
    ∃ mid, printTailM ms = mid ++ ['}'] := by
  induction ms with
  | nil => exact ⟨[], rfl⟩
  | cons m ms ih =>
    obtain ⟨mid, hmid⟩ := ih
    cases m with
    | mk k v =>
      refine ⟨',' :: (printKV (k, v) ++ mid), ?_⟩
      show ',' :: (printKV (k, v) ++ printTailM ms) = _
      rw [hmid]
      simp

theorem printV_obj_shape (ms : List (String × Js)) :
    ∃ mid, printV (.obj ms) = '{' :: mid ++ ['}'] := by
  cases ms with
  | nil => exact ⟨[], rfl⟩
  | cons m ms =>
    obtain ⟨mid, hmid⟩ := printTailM_closer ms
    refine ⟨printKV m ++ mid, ?_⟩
    show '{' :: (printKV m ++ printTailM ms) = _
    rw [hmid]
    simp

theorem szV_pos (v : Js) : 1 ≤ szV v := by
  cases v <;> simp [szV]

theorem szL_pos (xs : List Js) : 1 ≤ szL xs := by
  cases xs <;> simp [szL]

theorem szM_pos (ms : List (String × Js)) : 1 ≤ szM ms := by
  cases ms with
  | nil => simp [szM]
  | cons m ms => cases m; simp [szM]

mutual

theorem szV_le_printV : ∀ v : Js, szV v ≤ (printV v).length
  | .undef => by decide
  | .null => by decide
  | .bool true => by decide
  | .bool false => by decide
  | .num (.fin q) => by
    obtain ⟨c, t, hct, _⟩ := printNum_cons q
    simp [szV, printV, hct]
  | .num .nan => by decide
  | .num .posInf => by decide
  | .num .negInf => by decide
  | .str s => by simp [szV, printV]
  | .arr [] => by decide
  | .arr (x :: xs) => by
    have h1 := szV_le_printV x
    have h2 := szL_le_printTailL xs
    have h3 := szV_pos x
    have h4 := szL_pos xs
    simp only [szV, szL, printV, List.length_cons, List.length_append]
    omega
  | .obj [] => by decide
  | .obj ((k, v) :: ms) => by
    have h1 := szV_le_printV v
    have h2 := szM_le_printTailM ms
    have h3 := szV_pos v
    have h4 := szM_pos ms
    simp only [szV, szM, printV, printKV, List.length_cons, List.length_append]
    omega

theorem szL_le_printTailL : ∀ xs : List Js, szL xs ≤ (printTailL xs).length
  | [] => by decide
  | y :: ys => by
    have h1 := szV_le_printV y
    have h2 := szL_le_printTailL ys
    simp only [szL, printTailL, List.length_cons, List.length_append]
    omega

theorem szM_le_printTailM : ∀ ms : List (String × Js), szM ms ≤ (printTailM ms).length
  | [] => by decide
  | (k, v) :: ms => by
    have h1 := szV_le_printV v
    have h2 := szM_le_printTailM ms
    simp only [szM, printTailM, printKV, List.length_cons, List.length_append]
    omega

end

/-! ## C5: object construction is the identity on duplicate-free members -/

theorem assignKey_notmem (m : List (String × Js)) (kv : String × Js)
    (h : m.any (fun p => p.1 == kv.1) = false) : assignKey m kv = m ++ [kv] := by
  simp only [assignKey, h]
  rfl

theorem foldl_assignKey (ms : List (String × Js)) : ∀ acc,
    keysNodupB (ms.map Prod.fst) = true →
    (∀ k, k ∈ ms.map Prod.fst → acc.any (fun p => p.1 == k) = false) →
    ms.foldl assignKey acc = acc ++ ms := by
  induction ms with
  | nil =>
    intro acc _ _
    simp
  | cons m ms ih =>
    intro acc hnd hdis
    have hhd : acc.any (fun p => p.1 == m.1) = false := hdis m.1 (by simp)
    have hnd2 : (ms.map Prod.fst).contains m.1 = false ∧ keysNodupB (ms.map Prod.fst) = true := by
      have h2 : keysNodupB (m.1 :: ms.map Prod.fst) = true := by
        simpa using hnd
      simp only [keysNodupB, Bool.and_eq_true, Bool.not_eq_true'] at h2
      exact h2
    have hmem : m.1 ∉ ms.map Prod.fst := by
      intro hin
      have h3 := List.elem_eq_true_of_mem hin
      rw [show List.elem m.1 (List.map Prod.fst ms)
          = (List.map Prod.fst ms).contains m.1 from rfl, hnd2.1] at h3
      exact Bool.false_ne_true h3
    have hdis2 : ∀ k, k ∈ ms.map Prod.fst → (acc ++ [m]).any (fun p => p.1 == k) = false := by
      intro k hk
      rw [List.any_append]
      simp only [List.any_cons, List.any_nil, Bool.or_false, Bool.or_eq_false_iff]
      refine ⟨hdis k (by simp [hk]), ?_⟩
      exact beq_eq_false_iff_ne.mpr (fun he => hmem (he ▸ hk))
    rw [List.foldl_cons, assignKey_notmem acc m hhd, ih (acc ++ [m]) hnd2.2 hdis2]
    simp

theorem buildObj_nodup (ms : List (String × Js)) (h : keysNodupB (ms.map Prod.fst) = true) :
    buildObj ms = ms := by
  have := foldl_assignKey ms [] h (fun k _ => rfl)
  simpa [buildObj] using this

/-! ## C5: entering the parser on a printed head -/

theorem dropWhile_cons_neg (c : Char) (t : List Char) (h : jsonWs c = false) :
    (c :: t).dropWhile jsonWs = c :: t := by
  rw [List.dropWhile_cons, if_neg (by simp [h])]

theorem restStop_tailL (xs : List Js) (rest : List Char) :
    restStop (printTailL xs ++ rest) := by
  cases xs with
  | nil => exact Or.inr (Or.inl rfl)
  | cons y ys => exact Or.inl rfl

theorem restStop_tailM (ms : List (String × Js)) (rest : List Char) :
    restStop (printTailM ms ++ rest) := by
  cases ms with
  | nil => exact Or.inr (Or.inr rfl)
  | cons m ms => exact Or.inl rfl

theorem parseValue_arr_cons (n : Nat) (c : Char) (t : List Char)
    (hws : jsonWs c = false) (hnb : c ≠ ']') :
    parseValue (n + 1) ('[' :: (c :: t)) =
      (parseElems n (c :: t)).map (fun (p : List Js × List Char) => (Js.arr p.1, p.2)) := by
  conv_lhs => unfold parseValue
  rw [show List.dropWhile jsonWs ('[' :: (c :: t)) = '[' :: (c :: t) from
    dropWhile_cons_neg '[' (c :: t) rfl]
  show (match (c :: t).dropWhile jsonWs with
    | ']' :: r2 => some (Js.arr [], r2)
    | r2 => (parseElems n r2).map
        (fun (p : List Js × List Char) => (Js.arr p.1, p.2))) = _
  rw [dropWhile_cons_neg c t hws]
  split
  · rename_i heq
    exfalso
    injection heq with h1 _
    exact hnb h1
  · rfl

theorem parseValue_obj_cons (n : Nat) (c : Char) (t : List Char)
    (hws : jsonWs c = false) (hnb : c ≠ '}') :
    parseValue (n + 1) ('{' :: (c :: t)) =
      (parseMembers n (c :: t)).map
        (fun (p : List (String × Js) × List Char) => (Js.obj (buildObj p.1), p.2)) := by
  conv_lhs => unfold parseValue
  rw [show List.dropWhile jsonWs ('{' :: (c :: t)) = '{' :: (c :: t) from
    dropWhile_cons_neg '{' (c :: t) rfl]
  show (match (c :: t).dropWhile jsonWs with
    | '}' :: r2 => some (Js.obj [], r2)
    | r2 => (parseMembers n r2).map
        (fun (p : List (String × Js) × List Char) => (Js.obj (buildObj p.1), p.2))) = _
  rw [dropWhile_cons_neg c t hws]
  split
  · rename_i heq
    exfalso
    injection heq with h1 _
    exact hnb h1
  · rfl

set_option maxHeartbeats 2000000 in
theorem parseValue_num_entry (n : Nat) (c : Char) (t : List Char)
    (hc : isDigitCh c = true ∨ c = '-') :
    parseValue (n + 1) (c :: t) =
      (parseJsonNumber (c :: t)).map (fun (p : Rq × List Char) => (Js.num (.fin p.1), p.2)) := by
  have hws : jsonWs c = false := by
    rcases hc with hd | hm
    · exact jsonWs_digit c hd
    · subst hm; rfl
  have hne : c ≠ '{' ∧ c ≠ '[' ∧ c ≠ '"' ∧ c ≠ 't' ∧ c ≠ 'f' ∧ c ≠ 'n' := by
    rcases hc with hd | hm
    · obtain ⟨hb1, hb2⟩ := isDigitCh_bounds c hd
      refine ⟨?_, ?_, ?_, ?_, ?_, ?_⟩ <;>
        (intro he; subst he; first
          | exact absurd hb1 (by decide)
          | exact absurd hb2 (by decide))
    · subst hm
      decide
  conv_lhs => unfold parseValue
  rw [dropWhile_cons_neg c t hws]
  split
  · rename_i heq
    exfalso
    injection heq with h1 _
    exact hne.1 h1
  · rename_i heq
    exfalso
    injection heq with h1 _
    exact hne.2.1 h1
  · rename_i heq
    exfalso
    injection heq with h1 _
    exact hne.2.2.1 h1
  · rename_i heq
    exfalso
    injection heq with h1 _
    exact hne.2.2.2.1 h1
  · rename_i heq
    exfalso
    injection heq with h1 _
    exact hne.2.2.2.2.1 h1
  · rename_i heq
    exfalso
    injection heq with h1 _
    exact hne.2.2.2.2.2 h1
  · rfl

theorem parseValue_arr (n : Nat) (l : List Char) (c : Char) (t : List Char)
    (hl : l = c :: t) (hws : jsonWs c = false) (hnb : c ≠ ']') :
    parseValue (n + 1) ('[' :: l) =
      (parseElems n l).map (fun (p : List Js × List Char) => (Js.arr p.1, p.2)) := by
  subst hl
  exact parseValue_arr_cons n c t hws hnb

theorem parseValue_obj (n : Nat) (l : List Char) (c : Char) (t : List Char)
    (hl : l = c :: t) (hws : jsonWs c = false) (hnb : c ≠ '}') :
    parseValue (n + 1) ('{' :: l) =
      (parseMembers n l).map
        (fun (p : List (String × Js) × List Char) => (Js.obj (buildObj p.1), p.2)) := by
  subst hl
  exact parseValue_obj_cons n c t hws hnb

theorem parseValue_num (n : Nat) (l : List Char) (c : Char) (t : List Char)
    (hl : l = c :: t) (hc : isDigitCh c = true ∨ c = '-') :
    parseValue (n + 1) l =
      (parseJsonNumber l).map (fun (p : Rq × List Char) => (Js.num (.fin p.1), p.2)) := by
  subst hl
  exact parseValue_num_entry n c t hc

theorem parseValue_str (n : Nat) (l : List Char) :
    parseValue (n + 1) ('"' :: l) =
      (parseStringBody l).map (fun (p : List Char × List Char) => (Js.str ⟨p.1⟩, p.2)) := rfl

theorem parseMembers_entry (n : Nat) (l key r2 : List Char)
    (hsb : parseStringBody l = some (key, r2)) :
    parseMembers (n + 1) ('"' :: l) =
      (match r2.dropWhile jsonWs with
       | ':' :: r3 =>
         match parseValue n r3 with
         | none => none
         | some (v2, r4) =>
           match r4.dropWhile jsonWs with
           | ',' :: r5 =>
             match parseMembers n (r5.dropWhile jsonWs) with
             | some (ms2, r6) => some ((⟨key⟩, v2) :: ms2, r6)
             | none => none
           | '}' :: r5 => some ([(⟨key⟩, v2)], r5)
           | _ => none
       | _ => none) := by
  show (match parseStringBody l with
    | none => none
    | some (key2, r2b) =>
      match r2b.dropWhile jsonWs with
      | ':' :: r3 =>
        match parseValue n r3 with
        | none => none
        | some (v2, r4) =>
          match r4.dropWhile jsonWs with
          | ',' :: r5 =>
            match parseMembers n (r5.dropWhile jsonWs) with
            | some (ms2, r6) => some (((⟨key2⟩ : String), v2) :: ms2, r6)
            | none => none
          | '}' :: r5 => some ([((⟨key2⟩ : String), v2)], r5)
          | _ => none
      | _ => none) = _
  rw [hsb]

set_option maxHeartbeats 2000000 in
theorem parse_print_roundtrip : ∀ n : Nat,
    (∀ v rest, pureV v = true → szV v ≤ n → restStop rest →
      parseValue n (printV v ++ rest) = some (v, rest)) ∧
    (∀ x xs rest, pureV x = true → pureL xs = true → szL (x :: xs) ≤ n → restStop rest →
      parseElems n ((printV x ++ printTailL xs) ++ rest) = some (x :: xs, rest)) ∧
    (∀ k v ms rest, pureV v = true → pureM ms = true → szM ((k, v) :: ms) ≤ n → restStop rest →
      parseMembers n ((printKV (k, v) ++ printTailM ms) ++ rest) = some ((k, v) :: ms, rest)) := by
  intro n
  induction n with
  | zero =>
    refine ⟨?_, ?_, ?_⟩
    · intro v rest _ hsz _
      exact absurd hsz (by have := szV_pos v; omega)
    · intro x xs rest _ _ hsz _
      exact absurd hsz (by have := szL_pos (x :: xs); omega)
    · intro k v ms rest _ _ hsz _
      exact absurd hsz (by have := szM_pos ((k, v) :: ms); omega)
  | succ n ih =>
    obtain ⟨ihV, ihE, ihM⟩ := ih
    refine ⟨?_, ?_, ?_⟩
    · intro v rest hp hsz hr
      cases v with
      | undef => simp [pureV] at hp
      | null => rfl
      | bool b => cases b <;> rfl
      | num jn =>
        cases jn with
        | nan => simp [pureV] at hp
        | posInf => simp [pureV] at hp
        | negInf => simp [pureV] at hp
        | fin q =>
          have hq : rqCanon q = true ∧ rqDecadic q = true := by simpa [pureV] using hp
          obtain ⟨c, t, hct, hc⟩ := printNum_cons q
          show parseValue (n + 1) (printNum q ++ rest) = _
          rw [parseValue_num n (printNum q ++ rest) c (t ++ rest) (by rw [hct]; rfl) hc,
            parse_printNum q hq.1 hq.2 rest hr]
          rfl
      | str s =>
        show parseValue (n + 1) ('"' :: ((escString s.data ++ ['"']) ++ rest)) = _
        rw [parseValue_str,
          show (escString s.data ++ ['"']) ++ rest = escString s.data ++ '"' :: rest from by
            simp,
          parseStringBody_esc]
        rfl
      | arr xs =>
        cases xs with
        | nil => rfl
        | cons x xs2 =>
          have hx : pureV x = true ∧ pureL xs2 = true := by simpa [pureV, pureL] using hp
          have hsz2 : szL (x :: xs2) ≤ n := by
            have heq : szV (.arr (x :: xs2)) = szL (x :: xs2) + 1 := rfl
            omega
          obtain ⟨c, t, hct, hws, hnb, _⟩ := printV_cons x
          show parseValue (n + 1) ('[' :: ((printV x ++ printTailL xs2) ++ rest)) = _
          rw [parseValue_arr n ((printV x ++ printTailL xs2) ++ rest) c
              ((t ++ printTailL xs2) ++ rest) (by rw [hct]; rfl) hws hnb,
            ihE x xs2 rest hx.1 hx.2 hsz2 hr]
          rfl
      | obj ms =>
        cases ms with
        | nil => rfl
        | cons m ms2 =>
          cases m with
          | mk k v =>
            have hp2 : keysNodupB (((k, v) :: ms2).map Prod.fst) = true ∧
                pureV v = true ∧ pureM ms2 = true := by
              have h2 : (keysNodupB (((k, v) :: ms2).map Prod.fst)
                  && pureM ((k, v) :: ms2)) = true := hp
              simp only [Bool.and_eq_true] at h2
              have h3 : (pureV v && pureM ms2) = true := h2.2
              simp only [Bool.and_eq_true] at h3
              exact ⟨h2.1, h3.1, h3.2⟩
            have hsz2 : szM ((k, v) :: ms2) ≤ n := by
              have heq : szV (.obj ((k, v) :: ms2)) = szM ((k, v) :: ms2) + 1 := rfl
              omega
            show parseValue (n + 1) ('{' :: ((printKV (k, v) ++ printTailM ms2) ++ rest)) = _
            rw [parseValue_obj n ((printKV (k, v) ++ printTailM ms2) ++ rest) '"'
                (((escString k.data ++ '"' :: ':' :: printV v) ++ printTailM ms2) ++ rest)
                rfl rfl (by decide),
              ihM k v ms2 rest hp2.2.1 hp2.2.2 hsz2 hr]
            show some (Js.obj (buildObj ((k, v) :: ms2)), rest) = _
            rw [buildObj_nodup _ hp2.1]
    · intro x xs rest hx hxs hsz hr
      have hrest2 : restStop (printTailL xs ++ rest) := restStop_tailL xs rest
      have hszx : szV x ≤ n := by
        have heq : szL (x :: xs) = max (szV x) (szL xs) + 1 := rfl
        omega
      conv_lhs => unfold parseElems
      rw [List.append_assoc, ihV x (printTailL xs ++ rest) hx hszx hrest2]
      cases xs with
      | nil => rfl
      | cons y ys =>
        have hy : pureV y = true ∧ pureL ys = true := by simpa [pureL] using hxs
        have hszy : szL (y :: ys) ≤ n := by
          have heq : szL (x :: y :: ys) = max (szV x) (szL (y :: ys)) + 1 := rfl
          omega
        show (match parseElems n ((printV y ++ printTailL ys) ++ rest) with
          | some (vs, r3) => some (x :: vs, r3)
          | none => none) = some (x :: y :: ys, rest)
        rw [ihE y ys rest hy.1 hy.2 hszy hr]
    · intro k v ms rest hv hms hsz hr
      have hrest2 : restStop (printTailM ms ++ rest) := restStop_tailM ms rest
      have hszv : szV v ≤ n := by
        have heq : szM ((k, v) :: ms) = max (szV v) (szM ms) + 1 := rfl
        omega
      have hsplit : (printKV (k, v) ++ printTailM ms) ++ rest
          = '"' :: (escString k.data ++ '"' :: (':' :: (printV v ++ (printTailM ms ++ rest)))) := by
        show ('"' :: (escString k.data ++ '"' :: ':' :: printV v) ++ printTailM ms) ++ rest = _
        simp [List.cons_append, List.append_assoc]
      rw [hsplit, parseMembers_entry n _ k.data
        (':' :: (printV v ++ (printTailM ms ++ rest)))
        (parseStringBody_esc k.data (':' :: (printV v ++ (printTailM ms ++ rest))))]
      show (match parseValue n (printV v ++ (printTailM ms ++ rest)) with
        | none => none
        | some (v2, r4) =>
          match r4.dropWhile jsonWs with
          | ',' :: r5 =>
            match parseMembers n (r5.dropWhile jsonWs) with
            | some (ms2, r6) => some ((⟨k.data⟩, v2) :: ms2, r6)
            | none => none
          | '}' :: r5 => some ([(⟨k.data⟩, v2)], r5)
          | _ => none) = some ((k, v) :: ms, rest)
      rw [ihV v (printTailM ms ++ rest) hv hszv hrest2]
      cases ms with
      | nil => rfl
      | cons m2 ms2 =>
        cases m2 with
        | mk k2 v2 =>
          have hm2 : pureV v2 = true ∧ pureM ms2 = true := by
            have h3 : (pureV v2 && pureM ms2) = true := hms
            simp only [Bool.and_eq_true] at h3
            exact h3
          have hszm2 : szM ((k2, v2) :: ms2) ≤ n := by
            have heq : szM ((k, v) :: (k2, v2) :: ms2)
                = max (szV v) (szM ((k2, v2) :: ms2)) + 1 := rfl
            omega
          show (match parseMembers n ((printKV (k2, v2) ++ printTailM ms2) ++ rest) with
            | some (ms3, r6) => some ((⟨k.data⟩, v) :: ms3, r6)
            | none => none) = some ((k, v) :: (k2, v2) :: ms2, rest)
          rw [ihM k2 v2 ms2 rest hm2.1 hm2.2 hszm2 hr]

/-! ## C5: parsing a full serialization, and locating it inside larger text -/

theorem jsonParse_print (v : Js) (hp : pureV v = true) :
    jsonParse (jsonStringify v) = some v := by
  have h := (parse_print_roundtrip ((printV v).length + 1)).1 v [] hp
    (by have := szV_le_printV v; omega) trivial
  rw [List.append_nil] at h
  unfold jsonParse
  rw [show (jsonStringify v).data = printV v from rfl, h]
  rfl

theorem startsTriple_false (c : Char) (t : List Char) (h : c ≠ btChar) :
    startsTriple (c :: t) = false := by
  show (c == btChar && listStartsWith t [btChar, btChar]) = false
  rw [beq_eq_false_iff_ne.mpr h]
  rfl

theorem findFence_none (l : List Char) (h : btChar ∉ l) : findFenceL l = none := by
  induction l with
  | nil => rfl
  | cons c t ih =>
    have hc : c ≠ btChar := fun he => h (he ▸ List.mem_cons_self c t)
    conv_lhs => unfold findFenceL
    rw [startsTriple_false c t hc, if_neg (by decide)]
    exact ih (fun hm => h (List.mem_cons_of_mem c hm))

theorem listStartsWith_nil (l : List Char) : listStartsWith l [] = true := by
  cases l <;> rfl

theorem startsTriple_true (t : List Char) :
    startsTriple (btChar :: btChar :: btChar :: t) = true := by
  show listStartsWith t [] = true
  exact listStartsWith_nil t

theorem findFence_skip (m : List Char) :
    ∀ l : List Char, btChar ∉ l → findFenceL (l ++ m) = findFenceL m := by
  intro l
  induction l with
  | nil => intro _; rfl
  | cons c t ih =>
    intro h
    have hc : c ≠ btChar := fun he => h (he ▸ List.mem_cons_self c t)
    show (if startsTriple (c :: (t ++ m)) = true then
        match fenceAfterOpen ((t ++ m).drop 2) with
        | some g => some g
        | none => findFenceL (t ++ m)
      else findFenceL (t ++ m)) = findFenceL m
    rw [startsTriple_false c (t ++ m) hc, if_neg (by decide)]
    exact ih (fun hm => h (List.mem_cons_of_mem c hm))

theorem captureUntil_append (t2 : List Char) :
    ∀ l : List Char, btChar ∉ l →
      captureUntilTriple (l ++ btChar :: btChar :: btChar :: t2) = some l := by
  intro l
  induction l with
  | nil =>
    intro _
    show (if startsTriple (btChar :: btChar :: btChar :: t2) = true then some []
      else (captureUntilTriple (btChar :: btChar :: t2)).map (btChar :: ·)) = some []
    rw [startsTriple_true, if_pos rfl]
  | cons c t ih =>
    intro h
    have hc : c ≠ btChar := fun he => h (he ▸ List.mem_cons_self c t)
    show (if startsTriple (c :: (t ++ btChar :: btChar :: btChar :: t2)) = true then some []
      else (captureUntilTriple (t ++ btChar :: btChar :: btChar :: t2)).map (c :: ·))
        = some (c :: t)
    rw [startsTriple_false c _ hc, if_neg (by decide),
      ih (fun hm => h (List.mem_cons_of_mem c hm))]
    rfl

theorem fenceAfterOpen_json (P t2 : List Char) (hP : btChar ∉ P) (c : Char) (r : List Char)
    (hP1 : P = c :: r) (hws : jsIsWhite c = false) :
    fenceAfterOpen ('j' :: 's' :: 'o' :: 'n' :: '\n' ::
      (P ++ '\n' :: btChar :: btChar :: btChar :: t2)) = some (P ++ ['\n']) := by
  show captureUntilTriple
    (('\n' :: (P ++ '\n' :: btChar :: btChar :: btChar :: t2)).dropWhile jsIsWhite)
      = some (P ++ ['\n'])
  rw [List.dropWhile_cons, if_pos (by decide), hP1, List.cons_append, List.dropWhile_cons,
    if_neg (by simp [hws]), ← List.cons_append, ← hP1,
    show P ++ '\n' :: btChar :: btChar :: btChar :: t2
      = (P ++ ['\n']) ++ btChar :: btChar :: btChar :: t2 from by simp]
  exact captureUntil_append t2 (P ++ ['\n'])
    (by
      intro hm
      rw [List.mem_append] at hm
      rcases hm with hm | hm
      · exact hP hm
      · simp at hm
        exact absurd hm (by decide))

theorem idxOfGo_append (c : Char) (m : List Char) (hm : ∃ t, m = c :: t) :
    ∀ l : List Char, c ∉ l → ∀ i, idxOfGo c (l ++ m) i = some (i + l.length) := by
  intro l
  induction l with
  | nil =>
    intro _ i
    obtain ⟨t, ht⟩ := hm
    rw [List.nil_append, ht]
    show (if c == c then some i else idxOfGo c t (i + 1)) = some (i + 0)
    rw [if_pos (by simp)]
    simp
  | cons a l2 ih =>
    intro hl i
    have ha : a ≠ c := fun he => hl (he ▸ List.mem_cons_self a l2)
    show (if a == c then some i else idxOfGo c (l2 ++ m) (i + 1)) = some (i + (a :: l2).length)
    rw [if_neg (by simp [ha]), ih (fun hm2 => hl (List.mem_cons_of_mem a hm2)) (i + 1)]
    congr 1
    simp
    omega

theorem firstIdxOf_at (c : Char) (pre m : List Char) (hpre : c ∉ pre) (hm : ∃ t, m = c :: t) :
    firstIdxOf c (pre ++ m) = some pre.length := by
  have h := idxOfGo_append c m hm pre hpre 0
  simpa [firstIdxOf] using h

theorem lastIdxOf_at (c : Char) (A post : List Char) (hpost : c ∉ post)
    (hA : ∃ B, A = B ++ [c]) :
    lastIdxOf c (A ++ post) = some (A.length - 1) := by
  obtain ⟨B, hB⟩ := hA
  unfold lastIdxOf
  have hrev : (A ++ post).reverse = post.reverse ++ (c :: B.reverse) := by
    rw [hB]
    simp
  rw [hrev, idxOfGo_append c (c :: B.reverse) ⟨B.reverse, rfl⟩ post.reverse
    (by simpa using hpost) 0]
  show some ((A ++ post).length - 1 - (0 + post.reverse.length)) = some (A.length - 1)
  congr 1
  rw [hB]
  simp [List.length_append]

theorem braceSlice_extract (pre mid post : List Char)
    (hpre : '{' ∉ pre) (hpost : '}' ∉ post) :
    braceSliceL ((pre ++ ('{' :: mid ++ ['}'])) ++ post) = '{' :: mid ++ ['}'] := by
  have hfirst : firstIdxOf '{' ((pre ++ ('{' :: mid ++ ['}'])) ++ post) = some pre.length := by
    rw [List.append_assoc]
    exact firstIdxOf_at '{' pre (('{' :: mid ++ ['}']) ++ post) hpre
      ⟨(mid ++ ['}']) ++ post, by simp⟩
  have hlast : lastIdxOf '}' ((pre ++ ('{' :: mid ++ ['}'])) ++ post)
      = some ((pre ++ ('{' :: mid ++ ['}'])).length - 1) :=
    lastIdxOf_at '}' (pre ++ ('{' :: mid ++ ['}'])) post hpost ⟨pre ++ ('{' :: mid), by simp⟩
  have hlen : (pre ++ ('{' :: mid ++ ['}'])).length = pre.length + mid.length + 2 := by
    simp [List.length_append]
    omega
  unfold braceSliceL
  rw [hfirst, hlast]
  show (if pre.length < (pre ++ ('{' :: mid ++ ['}'])).length - 1 then
      ((((pre ++ ('{' :: mid ++ ['}'])) ++ post).take
        ((pre ++ ('{' :: mid ++ ['}'])).length - 1 + 1)).drop pre.length)
    else (pre ++ ('{' :: mid ++ ['}'])) ++ post) = '{' :: mid ++ ['}']
  rw [if_pos (by rw [hlen]; omega),
    show (pre ++ ('{' :: mid ++ ['}'])).length - 1 + 1
      = (pre ++ ('{' :: mid ++ ['}'])).length from by rw [hlen]; omega,
    List.take_left, List.drop_left]

theorem trimLeftL_append (a : List Char) (c : Char) (t : List Char) (hc : jsIsWhite c = false) :
    trimLeftL (a ++ c :: t) = trimLeftL a ++ c :: t := by
  induction a with
  | nil =>
    show List.dropWhile jsIsWhite (c :: t) = List.dropWhile jsIsWhite [] ++ c :: t
    rw [List.dropWhile_cons, if_neg (by simp [hc])]
    rfl
  | cons x a2 ih =>
    by_cases hx : jsIsWhite x
    · show List.dropWhile jsIsWhite (x :: (a2 ++ c :: t))
        = List.dropWhile jsIsWhite (x :: a2) ++ c :: t
      rw [List.dropWhile_cons, List.dropWhile_cons, if_pos (by simp [hx]),
        if_pos (by simp [hx])]
      exact ih
    · show List.dropWhile jsIsWhite (x :: (a2 ++ c :: t))
        = List.dropWhile jsIsWhite (x :: a2) ++ c :: t
      rw [List.dropWhile_cons, List.dropWhile_cons, if_neg (by simp [hx]),
        if_neg (by simp [hx])]
      rfl

theorem trimRightL_append (a : List Char) (c : Char) (b : List Char) (hc : jsIsWhite c = false) :
    trimRightL ((a ++ [c]) ++ b) = (a ++ [c]) ++ trimRightL b := by
  unfold trimRightL
  have h1 : ((a ++ [c]) ++ b).reverse = b.reverse ++ c :: a.reverse := by simp
  rw [h1]
  rw [show List.dropWhile jsIsWhite (b.reverse ++ c :: a.reverse)
      = List.dropWhile jsIsWhite b.reverse ++ c :: a.reverse from
    trimLeftL_append b.reverse c a.reverse hc]
  simp

theorem mem_trimLeftL {c : Char} {l : List Char} (h : c ∈ trimLeftL l) : c ∈ l := by
  obtain ⟨t, ht⟩ := dropWhile_suffix_ex jsIsWhite l
  rw [← ht]
  exact List.mem_append_right t h

theorem mem_trimRightL {c : Char} {l : List Char} (h : c ∈ trimRightL l) : c ∈ l := by
  obtain ⟨t, ht⟩ := trimRight_prefix_ex l
  rw [← ht]
  exact List.mem_append_left t h

theorem jsTrim_embed (pre P post : List Char) (c1 : Char) (t1 : List Char) (hP1 : P = c1 :: t1)
    (hws1 : jsIsWhite c1 = false) (B : List Char) (c2 : Char) (hP2 : P = B ++ [c2])
    (hws2 : jsIsWhite c2 = false) :
    (jsTrim ⟨pre ++ (P ++ post)⟩).data = (trimLeftL pre ++ P) ++ trimRightL post := by
  show trimRightL (trimLeftL (pre ++ (P ++ post))) = _
  rw [show P ++ post = c1 :: (t1 ++ post) from by rw [hP1]; rfl,
    trimLeftL_append pre c1 (t1 ++ post) hws1,
    show trimLeftL pre ++ c1 :: (t1 ++ post) = ((trimLeftL pre ++ B) ++ [c2]) ++ post from by
      rw [show (c1 :: (t1 ++ post) : List Char) = (c1 :: t1) ++ post from rfl, ← hP1, hP2]
      simp,
    trimRightL_append (trimLeftL pre ++ B) c2 post hws2,
    show (trimLeftL pre ++ B) ++ [c2] = trimLeftL pre ++ P from by rw [hP2]; simp]

theorem extractJson_plain (ms : List (String × Js)) (pre post : String)
    (hpure : pureV (.obj ms) = true)
    (hpre : '{' ∉ pre.data) (hpost : '}' ∉ post.data)
    (hbt1 : btChar ∉ pre.data) (hbt2 : btChar ∉ printV (.obj ms))
    (hbt3 : btChar ∉ post.data) :
    extractJson (pre ++ jsonStringify (.obj ms) ++ post) = some (.obj ms) := by
  obtain ⟨mid, hmid⟩ := printV_obj_shape ms
  have hdata : (pre ++ jsonStringify (.obj ms) ++ post).data
      = pre.data ++ (printV (.obj ms) ++ post.data) := by
    simp [jsonStringify]
  have hraw_ne : (pre ++ jsonStringify (.obj ms) ++ post) ≠ "" := by
    intro he
    have h0 : (pre ++ jsonStringify (.obj ms) ++ post).data = [] := by rw [he]
    rw [hdata, hmid] at h0
    simp at h0
  have htrim : (jsTrim (pre ++ jsonStringify (.obj ms) ++ post)).data
      = (trimLeftL pre.data ++ printV (.obj ms)) ++ trimRightL post.data := by
    have h1 := jsTrim_embed pre.data (printV (.obj ms)) post.data '{' (mid ++ ['}'])
      (by rw [hmid, List.cons_append]) rfl ('{' :: mid) '}' (by rw [hmid]) rfl
    rw [show (pre ++ jsonStringify (.obj ms) ++ post)
        = ⟨pre.data ++ (printV (.obj ms) ++ post.data)⟩ from by rw [← hdata]]
    exact h1
  have hfence : findFenceL (jsTrim (pre ++ jsonStringify (.obj ms) ++ post)).data = none := by
    rw [htrim]
    apply findFence_none
    intro hmem
    rw [List.mem_append] at hmem
    rcases hmem with hm | hm
    · rw [List.mem_append] at hm
      rcases hm with hm | hm
      · exact hbt1 (mem_trimLeftL hm)
      · exact hbt2 hm
    · exact hbt3 (mem_trimRightL hm)
  simp only [extractJson]
  rw [if_neg (by simp [hraw_ne]), hfence]
  show jsonParse ⟨braceSliceL (jsTrim (pre ++ jsonStringify (.obj ms) ++ post)).data⟩
    = some (.obj ms)
  rw [htrim, hmid, braceSlice_extract (trimLeftL pre.data) mid (trimRightL post.data)
    (fun hm => hpre (mem_trimLeftL hm)) (fun hm => hpost (mem_trimRightL hm)), ← hmid]
  exact jsonParse_print (.obj ms) hpure

theorem findFence_fence (tail : List Char) :
    findFenceL (btChar :: btChar :: btChar :: tail) =
      (match fenceAfterOpen tail with
       | some g => some g
       | none => findFenceL (btChar :: btChar :: tail)) := by
  show (if startsTriple (btChar :: btChar :: btChar :: tail) = true then
      match fenceAfterOpen ((btChar :: btChar :: tail).drop 2) with
      | some g => some g
      | none => findFenceL (btChar :: btChar :: tail)
    else findFenceL (btChar :: btChar :: tail)) = _
  rw [startsTriple_true, if_pos rfl]
  rfl

theorem extractJson_fenced (ms : List (String × Js)) (pre post : String)
    (hpure : pureV (.obj ms) = true)
    (hbt1 : btChar ∉ pre.data) (hbt2 : btChar ∉ printV (.obj ms)) :
    extractJson (pre ++ fenceWrap (jsonStringify (.obj ms)) ++ post) = some (.obj ms) := by
  obtain ⟨mid, hmid⟩ := printV_obj_shape ms
  have hFdata : (fenceWrap (jsonStringify (.obj ms))).data
      = btChar :: btChar :: btChar :: 'j' :: 's' :: 'o' :: 'n' :: '\n' ::
        (printV (.obj ms) ++ '\n' :: btChar :: btChar :: btChar :: []) := rfl
  have hdata : (pre ++ fenceWrap (jsonStringify (.obj ms)) ++ post).data
      = pre.data ++ ((fenceWrap (jsonStringify (.obj ms))).data ++ post.data) := by
    simp
  have hraw_ne : (pre ++ fenceWrap (jsonStringify (.obj ms)) ++ post) ≠ "" := by
    intro he
    have h0 : (pre ++ fenceWrap (jsonStringify (.obj ms)) ++ post).data = [] := by rw [he]
    rw [hdata, hFdata] at h0
    simp at h0
  have htrim : (jsTrim (pre ++ fenceWrap (jsonStringify (.obj ms)) ++ post)).data
      = (trimLeftL pre.data ++ (fenceWrap (jsonStringify (.obj ms))).data)
        ++ trimRightL post.data := by
    have h1 := jsTrim_embed pre.data (fenceWrap (jsonStringify (.obj ms))).data post.data
      btChar (btChar :: btChar :: 'j' :: 's' :: 'o' :: 'n' :: '\n' ::
        (printV (.obj ms) ++ '\n' :: btChar :: btChar :: btChar :: []))
      (by rw [hFdata]) rfl
      (btChar :: btChar :: btChar :: 'j' :: 's' :: 'o' :: 'n' :: '\n' ::
        (printV (.obj ms) ++ ['\n', btChar, btChar])) btChar
      (by rw [hFdata]; simp) rfl
    rw [show (pre ++ fenceWrap (jsonStringify (.obj ms)) ++ post)
        = ⟨pre.data ++ ((fenceWrap (jsonStringify (.obj ms))).data ++ post.data)⟩ from by
      rw [← hdata]]
    exact h1
  have hfence : findFenceL (jsTrim (pre ++ fenceWrap (jsonStringify (.obj ms)) ++ post)).data
      = some (printV (.obj ms) ++ ['\n']) := by
    rw [htrim, List.append_assoc,
      findFence_skip _ (trimLeftL pre.data) (fun hm => hbt1 (mem_trimLeftL hm)),
      show (fenceWrap (jsonStringify (.obj ms))).data ++ trimRightL post.data
        = btChar :: btChar :: btChar :: ('j' :: 's' :: 'o' :: 'n' :: '\n' ::
          (printV (.obj ms) ++ '\n' :: btChar :: btChar :: btChar :: trimRightL post.data))
        from by rw [hFdata]; simp,
      findFence_fence,
      fenceAfterOpen_json (printV (.obj ms)) (trimRightL post.data) hbt2 '{' (mid ++ ['}'])
        (by rw [hmid, List.cons_append]) rfl]
  simp only [extractJson]
  rw [if_neg (by simp [hraw_ne]), hfence]
  show jsonParse ⟨braceSliceL (if (printV (.obj ms) ++ ['\n']).isEmpty
      then jsTrim (pre ++ fenceWrap (jsonStringify (.obj ms)) ++ post)
      else jsTrim ⟨printV (.obj ms) ++ ['\n']⟩).data⟩
    = some (.obj ms)
  rw [if_neg (by rw [hmid]; simp)]
  have htrim2 : (jsTrim ⟨printV (.obj ms) ++ ['\n']⟩).data = printV (.obj ms) := by
    show trimRightL (trimLeftL (printV (.obj ms) ++ ['\n'])) = _
    rw [show printV (.obj ms) ++ ['\n'] = ('{' :: mid ++ ['}']) ++ ['\n'] from by rw [hmid],
      show (('{' :: mid ++ ['}']) ++ ['\n'] : List Char)
        = '{' :: ((mid ++ ['}']) ++ ['\n']) from by simp,
      trimLeft_eq_self _ (by intro c hc; simp at hc; subst hc; rfl),
      show ('{' :: ((mid ++ ['}']) ++ ['\n']) : List Char)
        = (('{' :: mid) ++ ['}']) ++ ['\n'] from by simp,
      trimRightL_append ('{' :: mid) '}' ['\n'] rfl]
    rw [show trimRightL ['\n'] = ([] : List Char) from rfl, List.append_nil, hmid]
  rw [htrim2, show printV (.obj ms)
      = (([] ++ ('{' :: mid ++ ['}'])) ++ [] : List Char) from by rw [hmid]; simp,
    braceSlice_extract [] mid [] (by simp) (by simp)]
  rw [show (('{' :: mid ++ ['}'] : List Char)) = printV (.obj ms) from hmid.symm]
  exact jsonParse_print (.obj ms) hpure

/-- C5 counterexample: the claim promises the round-trip for every well-formed
object embedded in arbitrary surrounding prose, but a stray closing brace in
the trailing prose extends the first-brace-to-last-brace slice beyond the
serialized object, and `JSON.parse` then fails: extraction returns an error
(`none`) rather than the original object. -/
theorem c5_counterexample :
    pureV vEx5 = true ∧
    extractJson ("Here is the result: " ++ jsonStringify vEx5 ++ " \x7d all done.") = none := by
  constructor
  · rfl
  · rfl

/-- C5 as amended: the extractor round-trip holds for every well-formed JSON
object provided the surrounding text does not interfere with the two location
heuristics: for prose embedding, the prose before the serialization contains
no `{`, the prose after it contains no `}`, and no backtick occurs anywhere
(so no fence is detected); for a backtick-fenced embedding (tagged `json`),
the prose before the fence and the serialization itself are backtick-free,
and the prose after the fence is then arbitrary.  In both cases `extractJson`
applied to the combined text recovers exactly the original object. -/
theorem c5_extractor_roundtrip (ms : List (String × Js)) (pre post : String)
    (hpure : pureV (.obj ms) = true)
    (hbt1 : btChar ∉ pre.data) (hbt2 : btChar ∉ printV (.obj ms)) :
    (('{' ∉ pre.data ∧ '}' ∉ post.data ∧ btChar ∉ post.data) →
      extractJson (pre ++ jsonStringify (.obj ms) ++ post) = some (.obj ms)) ∧
    extractJson (pre ++ fenceWrap (jsonStringify (.obj ms)) ++ post) = some (.obj ms) := by
  constructor
  · intro h
    exact extractJson_plain ms pre post hpure h.1 h.2.1 hbt1 hbt2 h.2.2
  · exact extractJson_fenced ms pre post hpure hbt1 hbt2

/-- C5 witness: the concrete object `{"score":7}` embedded in brace-free,
backtick-free prose, and the same object in a `json`-tagged fence followed by
arbitrary prose, are both recovered exactly. -/
theorem c5_extractor_roundtrip_witness :
    pureV vEx5 = true ∧
    extractJson ("Answer: " ++ jsonStringify vEx5 ++ " ok.") = some vEx5 ∧
    extractJson ("Answer: " ++ fenceWrap (jsonStringify vEx5) ++ " stray \x7d here \x7b")
      = some vEx5 := by
  refine ⟨rfl, ?_, ?_⟩
  · exact (c5_extractor_roundtrip [("score", .num (.fin (intToRq 7)))] "Answer: " " ok."
      rfl (by decide) (by decide)).1 ⟨by decide, by decide, by decide⟩
  · exact (c5_extractor_roundtrip [("score", .num (.fin (intToRq 7)))] "Answer: "
      " stray \x7d here \x7b" rfl (by decide) (by decide)).2
